import Mathlib

/-!
Verification development for the `lernapp` learning-time scheduler
(`kkoala/algorithms.py`, `kkoala/utils.py`, `kkoala/consts.py`,
`kkoala/models.py`).

Modelling conventions:
* A Python `datetime` is modelled as `PyDT`: rational minutes since the epoch
  day 1970-01-01 together with its timezone-awareness flag.  For an aware
  value `min` is the absolute UTC minute; for a naive value it is the wall
  clock minute.  Python refuses to order-compare a naive and an aware
  datetime (`TypeError`); the monadic comparators below reproduce that.
* Day numbers are integers (day 0 = 1970-01-01, a Thursday); `weekdayOf`
  follows Python's `date.weekday` (Monday = 0 … Sunday = 6).
* Float arithmetic on hours is modelled exactly with `ℚ` (the spec reads
  "modulo float rounding").
* `Event.start`/`Event.end_` model the stored ISO strings after parsing:
  the parse keeps the string's awareness, and `to_dt` normalises to aware
  UTC.  A block written through `to_iso` round-trips as an aware value.
-/

namespace Kkoala

/-- A Python `datetime`: rational minutes since epoch plus awareness flag. -/
structure PyDT where
  min : ℚ
  aware : Bool
deriving DecidableEq, Repr

/-- `to_dt` (kkoala/utils.py): normalise a parsed value to an aware UTC
datetime.  A naive value is reinterpreted as UTC (`replace(tzinfo=utc)`), an
aware value is converted (`astimezone(utc)`), so the minute count is kept. -/
def to_dt (d : PyDT) : PyDT := ⟨d.min, true⟩

/-- `to_dt` applied to a nullable column (`to_dt(None)` returns `None`). -/
def to_dt_opt (d : Option PyDT) : Option PyDT := d.map to_dt

/-- Calendar day of an instant (UTC date of a `datetime.date()` call):
the floor of `m / 1440`, computed on the numerator and denominator. -/
def dateOf (m : ℚ) : ℤ := Int.fdiv m.num (1440 * m.den)

/-- Wall-clock minutes after midnight (`datetime.time()`). -/
def time_of_day (m : ℚ) : ℚ := m - 1440 * (dateOf m : ℚ)

/-- Python `date.weekday()`: Monday = 0 … Sunday = 6 (day 0 is a Thursday). -/
def weekdayOf (d : ℤ) : ℤ := (d + 3) % 7

/-- Python ordering of datetimes: comparing naive with aware raises. -/
def py_lt (a b : PyDT) : Except String Bool :=
  if a.aware = b.aware then .ok (decide (a.min < b.min))
  else .error "TypeError: cannot compare offset-naive and offset-aware datetimes"

/-- Python `<=` on datetimes: comparing naive with aware raises. -/
def py_le (a b : PyDT) : Except String Bool :=
  if a.aware = b.aware then .ok (decide (a.min ≤ b.min))
  else .error "TypeError: cannot compare offset-naive and offset-aware datetimes"

/-! ### Civil calendar and the Europe/Zurich offset

`free_slots` converts the local 08:00/22:00 day bounds of the hard-coded
`ZoneInfo("Europe/Zurich")` to UTC.  Zurich follows the EU daylight-saving
rule (CEST between the last Sundays of March and October); the wall times
08:00 and 22:00 never fall in a transition window, so the offset on a given
calendar day is a function of the day alone.  Calendar conversions use the
standard civil-from-days algorithm. -/

/-- Day number → (year, month, day) of the proleptic Gregorian calendar. -/
def civilFromDays (z0 : ℤ) : ℤ × ℤ × ℤ :=
  let z := z0 + 719468
  let era := Int.fdiv z 146097
  let doe := z - era * 146097
  let yoe := Int.fdiv (doe - Int.fdiv doe 1460 + Int.fdiv doe 36524 - Int.fdiv doe 146096) 365
  let y := yoe + era * 400
  let doy := doe - (365 * yoe + Int.fdiv yoe 4 - Int.fdiv yoe 100)
  let mp := Int.fdiv (5 * doy + 2) 153
  let d := doy - Int.fdiv (153 * mp + 2) 5 + 1
  let m := if mp < 10 then mp + 3 else mp - 9
  (if m ≤ 2 then y + 1 else y, m, d)

/-- (year, month, day) → day number. -/
def daysFromCivil (y m d : ℤ) : ℤ :=
  let y2 := if m ≤ 2 then y - 1 else y
  let era := Int.fdiv y2 400
  let yoe := y2 - era * 400
  let mp := if 2 < m then m - 3 else m + 9
  let doy := Int.fdiv (153 * mp + 2) 5 + d - 1
  let doe := yoe * 365 + Int.fdiv yoe 4 - Int.fdiv yoe 100 + doy
  era * 146097 + doe - 719468

/-- Day number of the last Sunday of the given month. -/
def lastSundayOf (y m : ℤ) : ℤ :=
  let lastDay := daysFromCivil (if m = 12 then y + 1 else y) (if m = 12 then 1 else m + 1) 1 - 1
  lastDay - (weekdayOf lastDay + 1) % 7

/-- Europe/Zurich UTC offset in minutes at the 08:00/22:00 wall times of a
calendar day; CEST (+120) from the last Sunday of March up to (excluding)
the last Sunday of October, CET (+60) otherwise. -/
def zurichOffset (day : ℤ) : ℤ :=
  let y := (civilFromDays day).1
  if lastSundayOf y 3 ≤ day ∧ day < lastSundayOf y 10 then 120 else 60

/-! ### Data model (`kkoala/models.py`) -/

/-- `Event` row as consumed by the algorithm.  `start`/`end_` hold the parsed
ISO strings; `id` is the database primary key (for blocks created during a
run the key is assigned by the database and never read back, modelled as 0). -/
structure Event where
  id : ℤ
  user_id : ℤ
  title : String
  start : PyDT
  end_ : Option PyDT
  color : String
  priority : ℤ
  recurrence : String
  recurrence_id : String
  all_day : Bool
  locked : Bool
  exam_id : Option ℤ
deriving DecidableEq, Repr

/-- `PrioritySetting` row as consumed by `learning_time_algorithm`
(`days_to_learn` is the window column the algorithm reads; it is declared in
the `app.py` schema revision of this repository). -/
structure PrioritySetting where
  priority_level : ℤ
  color : String
  max_hours_per_day : ℚ
  total_hours_to_learn : ℚ
  days_to_learn : ℤ
deriving DecidableEq, Repr

/-- `Settings` row; `preferred_learning_time` is stored as "HH:MM" and parsed
with `strptime`, modelled here as the minutes after midnight it denotes. -/
structure Settings where
  learn_on_saturday : Bool
  learn_on_sunday : Bool
  preferred_learning_time : ℚ
  study_block_color : Option String
  priority_settings : List PrioritySetting
deriving DecidableEq, Repr

/-- The dict `{p.priority_level: p for p in settings.priority_settings}`:
a later entry with the same level overwrites an earlier one. -/
def prio_get (l : List PrioritySetting) (k : ℤ) : Option PrioritySetting :=
  (l.filter (fun p => p.priority_level == k)).getLast?

/-- `max(priority_settings.keys())`; only evaluated on nonempty settings
(the algorithm returns an error dict first otherwise). -/
def max_exam_priority : List PrioritySetting → ℤ
  | [] => 0
  | p :: rest => rest.foldl (fun m q => max m q.priority_level) p.priority_level

/-! ### `free_slots` (kkoala/utils.py) -/

/-- `event_end = to_dt(event.end) if event.end else to_dt(event_start)`. -/
def effEnd (e : Event) : ℚ :=
  match e.end_ with
  | none => (to_dt e.start).min
  | some x => (to_dt x).min

/-- The sweep loop of `free_slots`: walks the day's events in start order,
emitting the gap before each event (30-minute buffer on both sides) and
returning `[]` outright when an all-day event is encountered. -/
def fsGo (dayEnd : ℚ) : List Event → ℚ → List (ℚ × ℚ) → List (ℚ × ℚ)
  | [], cs, acc => if cs ≤ dayEnd then acc ++ [(cs, dayEnd)] else acc
  | e :: rest, cs, acc =>
    if e.all_day then []
    else
      let es := (to_dt e.start).min
      let acc2 := if cs ≤ es - 30 then acc ++ [(cs, es - 30)] else acc
      fsGo dayEnd rest (max cs (effEnd e + 30)) acc2

/-- UTC instant of local 08:00 (`DAY_START`, kkoala/consts.py) on a day. -/
def day_start_utc (day : ℤ) : ℚ := (day * 1440 + 480 - zurichOffset day : ℤ)

/-- UTC instant of local 22:00 (`DAY_END`) on a day. -/
def day_end_utc (day : ℤ) : ℚ := (day * 1440 + 1320 - zurichOffset day : ℤ)

/-- Events whose (UTC) start date is the given day. -/
def events_on (events : List Event) (day : ℤ) : List Event :=
  events.filter (fun e => dateOf (to_dt e.start).min == day)

/-- `free_slots(events, day)`: free windows between 08:00 and 22:00
Europe/Zurich (as UTC instants), keeping a 30-minute margin around every
event that starts on the day; any all-day event blocks the whole day. -/
def free_slots (events : List Event) (day : ℤ) : List (ℚ × ℚ) :=
  let events_today :=
    (events_on events day).mergeSort
      (fun a b => decide ((to_dt a.start).min ≤ (to_dt b.start).min))
  fsGo (day_end_utc day) events_today (day_start_utc day) []

/-! ### `learning_time_algorithm` (kkoala/algorithms.py)

The run mutates an in-memory working set and commits every created or
deleted block to the database immediately, so a raised exception leaves all
effects up to that point in place.  The model therefore carries the working
state into the error case: step functions return
`Except (String × RunState) …`, and the whole run yields a `RunResult` that
keeps the partial state of a raised run. -/

/-- Mutable state of one run: the working event list (Python mutates the
`events` argument in place) and the summary counters; `successes` models the
per-exam dict keyed by exam title (flag, scheduled hours, required hours). -/
structure RunState where
  events : List Event
  exams_processed : ℕ
  blocks_added : ℕ
  hours_added : ℚ
  successes : List (String × Bool × ℚ × ℚ)
deriving DecidableEq, Repr

/-- Attach the current working state to an exception from a pure helper. -/
def liftSt (st : RunState) : Except String α → Except (String × RunState) α
  | .ok a => .ok a
  | .error m => .error (m, st)

/-- List comprehension with a fallible condition (raises at the first
element whose condition raises, as a Python generator does). -/
def filterE (p : α → Except String Bool) : List α → Except String (List α)
  | [] => .ok []
  | a :: rest => do
    let b ← p a
    let tail ← filterE p rest
    .ok (if b then a :: tail else tail)

/-- `sum(...)` over a generator of fallible terms. -/
def sumE (f : α → Except String ℚ) : List α → Except String ℚ
  | [] => .ok 0
  | a :: rest => do
    let x ← f a
    let y ← sumE f rest
    .ok (x + y)

/-- Duration in hours, `(to_dt(block.end) - to_dt(block.start)) / 3600`;
a block without an end raises (`None - datetime`). -/
def dur_hours (b : Event) : Except String ℚ :=
  match b.end_ with
  | none => .error "TypeError: unsupported operand types for -: NoneType and datetime"
  | some e => .ok (((to_dt e).min - (to_dt b.start).min) / 60)

/-- Dict assignment `successes[exam.title] = val`: replace in place if the
key exists, append otherwise. -/
def upsert (key : String) (val : Bool × ℚ × ℚ) :
    List (String × Bool × ℚ × ℚ) → List (String × Bool × ℚ × ℚ)
  | [] => [(key, val)]
  | (k, v) :: rest => if k == key then (k, val) :: rest else (k, v) :: upsert key val rest

/-- `events.remove(block)` for each recycled block (first occurrence). -/
def removeAll (events : List Event) (to_remove : List Event) : List Event :=
  to_remove.foldl (fun acc b => acc.erase b) events

/-- Sort key order of line 47, `(int(priority), fromisoformat(start))`. -/
def exam_sort_le (a b : Event) : Bool :=
  decide (a.priority < b.priority) ||
    (a.priority == b.priority && decide (a.start.min ≤ b.start.min))

/-- Python's sort compares the `fromisoformat` datetimes only for keys with
equal priority, and raises if such a pair mixes naive and aware values.
This predicate demands awareness-compatibility for every tied pair, a
deterministic rendering of the comparisons Timsort may perform. -/
def sort_compat (l : List Event) : Bool :=
  l.all (fun a => l.all (fun b => a.priority != b.priority || a.start.aware == b.start.aware))

/-- Filter of line 46: `0 < int(priority) <= max_exam_priority`. -/
def exam_filter (events : List Event) (maxPrio : ℤ) : List Event :=
  events.filter (fun e => decide (0 < e.priority) && decide (e.priority ≤ maxPrio))

/-- Lines 45–48: the sorted exam list. -/
def select_exams (events : List Event) (maxPrio : ℤ) : List Event :=
  (exam_filter events maxPrio).mergeSort exam_sort_le

/-- Settings of the run after the preamble of lines 34–42. -/
structure AlgCfg where
  sat_learn : Bool
  sun_learn : Bool
  preferred_minutes : ℚ
  block_color : String
deriving DecidableEq, Repr

/-- Per-exam context of the scheduling loops. -/
structure ExamCtx where
  exam : Event
  max_per_day : ℚ
  hours_left : ℚ
deriving DecidableEq, Repr

/-- Lines 124–128: hours already scheduled for this exam on this day. -/
def scheduled_today_for_exam (events : List Event) (examId : ℤ) (day : ℤ) :
    Except String ℚ :=
  sumE dur_hours
    (events.filter (fun b => b.exam_id == some examId && dateOf (to_dt b.start).min == day))

/-- Lines 145–153: the preferred-window conflict loop.  The window bounds
are naive (`datetime.combine`), every event bound is aware (`to_dt`), and a
missing end stays `None`; both defects surface as raised `TypeError`s. -/
def preferred_slot_free (pStart pEnd : PyDT) : List Event → Except String Bool
  | [] => .ok true
  | e :: rest => do
    let es := to_dt e.start
    let c1 ← py_le pEnd ⟨es.min - 30, es.aware⟩
    if c1 then preferred_slot_free pStart pEnd rest
    else
      match to_dt_opt e.end_ with
      | none => .error "TypeError: unsupported operand types for +: NoneType and timedelta"
      | some v => do
        let c2 ← py_le ⟨v.min + 30, v.aware⟩ pStart
        if c2 then preferred_slot_free pStart pEnd rest else .ok false

/-- A freshly created study block (lines 157–169). -/
def make_block (exam : Event) (color : String) (bs be : ℚ) : Event :=
  { id := 0
    user_id := exam.user_id
    title := "Learning for " ++ exam.title
    start := ⟨bs, true⟩
    end_ := some ⟨be, true⟩
    color := color
    priority := 0
    recurrence := "None"
    recurrence_id := "0"
    all_day := false
    locked := false
    exam_id := some exam.id }

/-- Commit a block: append to the working set and bump the summary. -/
def addBlock (st : RunState) (b : Event) (h : ℚ) : RunState :=
  { st with
    events := st.events ++ [b]
    blocks_added := st.blocks_added + 1
    hours_added := st.hours_added + h }

/-- `slots.sort(key=duration, reverse=True)` (stable). -/
def sort_slots (slots : List (ℚ × ℚ)) : List (ℚ × ℚ) :=
  slots.mergeSort (fun a b => decide (b.2 - b.1 ≤ a.2 - a.1))

/-- Lines 182–218: take the first (largest) usable slot, or none. -/
def general_search (rem todayMax : ℚ) : List (ℚ × ℚ) → Option (ℚ × ℚ)
  | [] => none
  | (s, e) :: rest =>
    let dur := (e - s) / 60
    if dur < 1/2 then general_search rem todayMax rest
    else
      let alloc := min dur (min rem todayMax)
      if alloc < 1/2 then general_search rem todayMax rest
      else some (s, alloc)

/-- Lines 124–218 (and their copy at 232–323): the body run for one
candidate day, after the day has passed the loop's own window/weekend/break
checks.  Returns the updated `(new_scheduled, state)`. -/
def schedule_day (cfg : AlgCfg) (ctx : ExamCtx) (day : ℤ) (ns : ℚ) (st : RunState) :
    Except (String × RunState) (ℚ × RunState) := do
  let schedToday ← liftSt st (scheduled_today_for_exam st.events ctx.exam.id day)
  let todayMax := min (ctx.max_per_day - schedToday) (ctx.hours_left - ns)
  if todayMax ≤ 1/2 then .ok (ns, st)
  else
    let eventsToday := events_on st.events day
    let pStart : PyDT := ⟨(day : ℚ) * 1440 + cfg.preferred_minutes, false⟩
    let pEnd0 : PyDT := ⟨pStart.min + todayMax * 60, false⟩
    let pEnd := if 1320 < time_of_day pEnd0.min then (⟨(day : ℚ) * 1440 + 1320, false⟩ : PyDT) else pEnd0
    let prefDur := (pEnd.min - pStart.min) / 60
    let slotFree ←
      if 1/2 ≤ prefDur then liftSt st (preferred_slot_free pStart pEnd eventsToday)
      else .ok false
    if slotFree then
      let b := make_block ctx.exam cfg.block_color pStart.min pEnd.min
      .ok (ns + prefDur, addBlock st b prefDur)
    else
      match general_search (ctx.hours_left - ns) todayMax (sort_slots (free_slots st.events day)) with
      | none => .ok (ns, st)
      | some (bs, alloc) =>
        .ok (ns + alloc, addBlock st (make_block ctx.exam cfg.block_color bs (bs + alloc * 60)) alloc)

/-- Main backward loop, lines 105–218: window check, weekend check, break
on completion, then the common day body. -/
def main_loop (cfg : AlgCfg) (ctx : ExamCtx) (windowStart windowEnd : ℚ) :
    List ℤ → ℚ → RunState → Except (String × RunState) (ℚ × RunState)
  | [], ns, st => .ok (ns, st)
  | k :: rest, ns, st =>
    let d := dateOf (windowEnd - k * 1440)
    if d < dateOf windowStart then main_loop cfg ctx windowStart windowEnd rest ns st
    else if (!cfg.sat_learn && weekdayOf d == 5) || (!cfg.sun_learn && weekdayOf d == 6) then
      main_loop cfg ctx windowStart windowEnd rest ns st
    else if ctx.hours_left ≤ ns then .ok (ns, st)
    else do
      let (ns2, st2) ← schedule_day cfg ctx d ns st
      main_loop cfg ctx windowStart windowEnd rest ns2 st2

/-- Extension loop, lines 223–323: beyond the learning window, with only
the break check — no window re-check and no weekend check. -/
def ext_loop (cfg : AlgCfg) (ctx : ExamCtx) (windowEnd : ℚ) :
    List ℤ → ℚ → RunState → Except (String × RunState) (ℚ × RunState)
  | [], ns, st => .ok (ns, st)
  | k :: rest, ns, st =>
    let d := dateOf (windowEnd - k * 1440)
    if ctx.hours_left ≤ ns then .ok (ns, st)
    else do
      let (ns2, st2) ← schedule_day cfg ctx d ns st
      ext_loop cfg ctx windowEnd rest ns2 st2

/-- `range(lo, hi)` on integers. -/
def int_range (lo hi : ℤ) : List ℤ :=
  (List.range (hi - lo).toNat).map (fun i => lo + i)

/-- Lines 55–333: processing of a single exam. -/
def exam_step (cfg : AlgCfg) (prios : List PrioritySetting) (now : ℚ)
    (st : RunState) (exam : Event) : Except (String × RunState) RunState := do
  match prio_get prios exam.priority with
  | none => .ok st
  | some ps =>
    let st1 := { st with exams_processed := st.exams_processed + 1 }
    let total := ps.total_hours_to_learn
    let windowDays := ps.days_to_learn
    let windowEnd := (to_dt exam.start).min
    let windowStart := windowEnd - windowDays * 1440
    let examBlocks := st1.events.filter (fun b => b.exam_id == some exam.id)
    let pastBlocks ← liftSt st1
      (filterE (fun b => py_lt (to_dt b.start) ⟨now, false⟩) examBlocks)
    let futureBlocks ← liftSt st1
      (filterE (fun b => do
        let c1 ← py_le ⟨now, false⟩ (to_dt b.start)
        if c1 then do
          let c2 ← py_le ⟨windowStart, true⟩ (to_dt b.start)
          if c2 then py_lt (to_dt b.start) ⟨windowEnd, true⟩ else .ok false
        else .ok false) examBlocks)
    let hoursDone ← liftSt st1 (sumE dur_hours pastBlocks)
    let lockedFuture := futureBlocks.filter (fun b => b.locked)
    let recyclable := futureBlocks.filter (fun b => !b.locked)
    let st2 := { st1 with events := removeAll st1.events recyclable }
    let hoursLocked ← liftSt st2 (sumE dur_hours lockedFuture)
    let hoursLeft := max 0 (total - hoursDone - hoursLocked)
    if hoursLeft = 0 then .ok st2
    else
      let daysLeft := dateOf windowEnd - dateOf now
      let ctx : ExamCtx := ⟨exam, ps.max_hours_per_day, hoursLeft⟩
      let (ns1, st3) ← main_loop cfg ctx windowStart windowEnd (int_range 1 (daysLeft + 1)) 0 st2
      let (ns2, st4) ←
        if ns1 < hoursLeft then
          ext_loop cfg ctx windowEnd (int_range (windowDays + 1) (min 22 (daysLeft + 1))) ns1 st3
        else .ok (ns1, st3)
      let totalScheduled := ns2 + hoursLocked
      let totalRequired := max 0 (total - hoursDone)
      .ok { st4 with
            successes :=
              upsert exam.title (decide (totalRequired ≤ totalScheduled), totalScheduled, totalRequired)
                st4.successes }

/-- The main exam loop. -/
def exams_fold (cfg : AlgCfg) (prios : List PrioritySetting) (now : ℚ) :
    List Event → RunState → Except (String × RunState) RunState
  | [], st => .ok st
  | e :: rest, st => do
    let st2 ← exam_step cfg prios now st e
    exams_fold cfg prios now rest st2

/-- Outcome of a run: the no-configuration early return, a finished run, or
a raised exception with the partial state that the database has seen. -/
inductive RunResult where
  | no_priority_settings
  | finished (s : RunState)
  | raised (msg : String) (s : RunState)
deriving DecidableEq, Repr

/-- `learning_time_algorithm(events, user)` with the user's settings and the
current naive wall time `now` (`datetime.now()`). -/
def learning_time_algorithm (events : List Event) (settings : Settings) (now : ℚ) :
    RunResult :=
  if settings.priority_settings.isEmpty then .no_priority_settings
  else
    let maxPrio := max_exam_priority settings.priority_settings
    let cfg : AlgCfg :=
      ⟨settings.learn_on_saturday, settings.learn_on_sunday,
        settings.preferred_learning_time,
        (match settings.study_block_color with | some c => c | none => "#0000FF")⟩
    let init : RunState := ⟨events, 0, 0, 0, []⟩
    if sort_compat (exam_filter events maxPrio) then
      match exams_fold cfg settings.priority_settings now (select_exams events maxPrio) init with
      | .ok s => .finished s
      | .error (m, s) => .raised m s
    else
      .raised "TypeError: cannot compare offset-naive and offset-aware datetimes" init

/-- Working state carried by a non-early-return outcome. -/
def stateOf : RunResult → Option RunState
  | .no_priority_settings => none
  | .finished s => some s
  | .raised _ s => some s

/-- Blocks created by a run (every mutation of the working set that
survives is an append, proved below). -/
def created_blocks (input : List Event) (s : RunState) : List Event :=
  s.events.drop input.length

/-- Pure rendering of `scheduled_today_for_exam` (meaningful whenever the
monadic sum succeeds, i.e. all contributing blocks carry an end). -/
def linked_hours (events : List Event) (examId : ℤ) (day : ℤ) : ℚ :=
  ((events.filter (fun b => b.exam_id == some examId && dateOf (to_dt b.start).min == day)).map
    (fun b => (effEnd b - (to_dt b.start).min) / 60)).sum

/-- 30-minute separation of a block from another event (a missing end is
read as end = start, which for created blocks coincides with the real
end): the block starts at least 30 minutes after the event ends, or ends
at least 30 minutes before the event starts. -/
def BufferSep (b e : Event) : Prop :=
  effEnd e + 30 ≤ (to_dt b.start).min ∨ effEnd b ≤ (to_dt e.start).min - 30

/-- Every event from position `n` on keeps the buffer margin towards every
other event that starts on the same calendar day. -/
def buffer_respected (n : ℕ) (evts : List Event) : Prop :=
  ∀ i j : Fin evts.length, n ≤ (i : ℕ) → (i : ℕ) ≠ (j : ℕ) →
    dateOf (to_dt (evts.get i).start).min = dateOf (to_dt (evts.get j).start).min →
    BufferSep (evts.get i) (evts.get j)

/-- The working set `b` extends `a` by blocks generated for one exam. -/
def ExtBy (exam : Event) (color : String) (a b : List Event) : Prop :=
  ∃ t, b = a ++ t ∧ ∀ blk ∈ t, ∃ bs be, blk = make_block exam color bs be

/-! ### Concrete scenarios

Calendar conventions as above: day 15 is a Friday, 16 a Saturday, 17 a
Sunday, 18 a Monday, 20 a Wednesday.  Times are minutes; 1080 = 18:00. -/

/-- An exam that already took place (day 10, before `c1Now` on day 15). -/
def c1Exam : Event :=
  ⟨1, 7, "Old Exam", ⟨10 * 1440 + 540, false⟩, some ⟨10 * 1440 + 660, false⟩, "#770000", 1,
    "None", "0", false, true, none⟩

/-- One priority level: 2 h/day, 2 h total, 10-day window. -/
def c1Settings : Settings := ⟨false, false, 1080, some "#0000FF", [⟨1, "#770000", 2, 2, 10⟩]⟩

/-- `datetime.now()` of the run: day 15, 10:00. -/
def c1Now : ℚ := 15 * 1440 + 600

/-- A Monday exam whose 1-day learning window pushes the extension loop
onto the preceding Saturday. -/
def c2Exam : Event :=
  ⟨1, 7, "Math Exam", ⟨18 * 1440 + 540, false⟩, some ⟨18 * 1440 + 660, false⟩, "#770000", 1,
    "None", "0", false, true, none⟩

/-- Weekends disabled; priority 1 wants 4 h in a 1-day window at 2 h/day. -/
def c2Settings : Settings := ⟨false, false, 1080, some "#0000FF", [⟨1, "#770000", 2, 4, 1⟩]⟩

/-- Run time: Friday (day 15), 10:00. -/
def c2Now : ℚ := 15 * 1440 + 600

/-- A Wednesday exam three days after `c3Now`. -/
def c3Exam : Event :=
  ⟨1, 7, "Math Exam", ⟨20 * 1440 + 540, false⟩, some ⟨20 * 1440 + 660, false⟩, "#770000", 1,
    "None", "0", false, true, none⟩

/-- 2 h/day, 2 h total, 10-day window. -/
def c3Settings : Settings := ⟨false, false, 1080, some "#0000FF", [⟨1, "#770000", 2, 2, 10⟩]⟩

/-- Run time: Sunday (day 17), 10:00. -/
def c3Now : ℚ := 17 * 1440 + 600

/-- The study block the first `c3` run creates (Tuesday 18:00–20:00). -/
def c3Block : Event :=
  ⟨0, 7, "Learning for Math Exam", ⟨19 * 1440 + 1080, true⟩, some ⟨19 * 1440 + 1200, true⟩,
    "#0000FF", 0, "None", "0", false, false, some 1⟩

/-- State after the first `c3` run. -/
def c3State1 : RunState :=
  ⟨[c3Exam, c3Block], 1, 1, 2, [("Math Exam", true, 2, 2)]⟩

/-- A stale unlocked block whose title matches the naming convention but
whose `exam_id` is null; it sits on Saturday day 16, 18:00–20:00. -/
def c4Stale : Event :=
  ⟨2, 7, "Learning for Math Exam", ⟨16 * 1440 + 1080, true⟩, some ⟨16 * 1440 + 1200, true⟩,
    "#0000FF", 0, "None", "0", false, false, none⟩

/-- The exam "Math Exam" on day 20; `c4Stale`'s title matches it. -/
def c4Exam : Event := c3Exam

/-- Same configuration as the `c3` scenario. -/
def c4Settings : Settings := c3Settings

/-- Run time: Friday (day 15), 10:00 — the stale block lies in the future. -/
def c4Now : ℚ := 15 * 1440 + 600

/-- Priority level whose `total_hours_to_learn` is zero. -/
def c8Prio : PrioritySetting := ⟨1, "#770000", 2, 0, 10⟩

/-- A future exam of that priority. -/
def c8Exam : Event := c3Exam

/-- Settings with the zero-total priority level. -/
def c8Settings : Settings := ⟨false, false, 1080, some "#0000FF", [c8Prio]⟩

/-- Run time: Sunday (day 17), 10:00. -/
def c8Now : ℚ := 17 * 1440 + 600

/-- An event on candidate day 19 that lacks an end. -/
def c9Event : Event :=
  ⟨3, 7, "Club", ⟨19 * 1440 + 1080, false⟩, none, "#123456", 5, "None", "0", false, true, none⟩

/-- Events of the `c9` run: the exam plus the end-less event. -/
def c9Events : List Event := [c3Exam, c9Event]

/-- Same configuration as the `c3` scenario. -/
def c9Settings : Settings := c3Settings

/-- Run time: Sunday (day 17), 10:00. -/
def c9Now : ℚ := 17 * 1440 + 600

/-- An all-day event on day 19 (used with the `c8` configuration). -/
def c5AllDay : Event :=
  ⟨4, 7, "Holiday", ⟨19 * 1440, false⟩, none, "#00FF00", 5, "None", "0", true, false, none⟩

/-- C1 — the claim says the set of exams processed by a run contains only
events whose start is strictly after `now` ("events that have already
started are never scheduling targets").  Counterexample: a run over a
single long-past exam finishes with `exams_processed = 1` and a reported
outcome for it, although the set of events with a configured priority and
a start after `now` is empty. -/
theorem C1_counterexample :
    learning_time_algorithm [c1Exam] c1Settings c1Now =
      .finished ⟨[c1Exam], 1, 0, 0, [("Old Exam", false, 0, 2)]⟩ ∧
    (to_dt c1Exam.start).min < c1Now ∧
    ([c1Exam].filter (fun e =>
        (prio_get c1Settings.priority_settings e.priority).isSome &&
          decide (c1Now < (to_dt e.start).min))).length = 0 := by
  refine ⟨?_, by norm_num [to_dt, c1Exam, c1Now], ?_⟩ <;>
    norm_num [learning_time_algorithm, exams_fold, exam_step, main_loop, ext_loop, schedule_day,
      scheduled_today_for_exam, sumE, filterE, dur_hours, preferred_slot_free, general_search,
      sort_slots, free_slots, fsGo, events_on, make_block, addBlock, upsert, removeAll,
      select_exams, exam_filter, exam_sort_le, sort_compat, prio_get, max_exam_priority,
      int_range, py_lt, py_le, to_dt, to_dt_opt, dateOf, time_of_day, weekdayOf, effEnd,
      day_start_utc, day_end_utc, liftSt, c1Exam, c1Settings, c1Now, min_def, max_def,
      Bind.bind, Except.bind, Pure.pure, Except.pure, Int.fdiv_eq_ediv]

/-- C2 — with `learn_on_saturday = false`, the extension pass (days beyond
the initial learning window, lines 223–323) repeats the scheduling body
without the weekend check of line 112 and commits a study block that starts
on a Saturday: the run below finishes with a created block on day 16, a
Saturday, violating the claimed invariant.  The in-code comment even calls
the extension body "identical to the main scheduling loop". -/
theorem C2_theorem :
    c2Settings.learn_on_saturday = false ∧
    (stateOf (learning_time_algorithm [c2Exam] c2Settings c2Now)).map
        (fun s => (created_blocks [c2Exam] s).any
          (fun b => weekdayOf (dateOf (to_dt b.start).min) == 5)) = some true := by
  refine ⟨rfl, ?_⟩
  norm_num [learning_time_algorithm, exams_fold, exam_step, main_loop, ext_loop, schedule_day,
    scheduled_today_for_exam, sumE, filterE, dur_hours, preferred_slot_free, general_search,
    sort_slots, free_slots, fsGo, events_on, make_block, addBlock, upsert, removeAll,
    select_exams, exam_filter, exam_sort_le, sort_compat, prio_get, max_exam_priority,
    int_range, py_lt, py_le, to_dt, to_dt_opt, dateOf, time_of_day, weekdayOf, effEnd,
    day_start_utc, day_end_utc, liftSt, stateOf, created_blocks, c2Exam, c2Settings, c2Now,
    min_def, max_def, Bind.bind, Except.bind, Pure.pure, Except.pure, Int.fdiv_eq_ediv]

/-- C3 — a second run immediately after a first one does not reproduce the
schedule: it raises `TypeError` while splitting the first run's blocks into
past and future (line 72 compares the aware `to_dt(block.start)` with the
naive `datetime.now()`), so re-invoking the algorithm on its own output
fails instead of being idempotent. -/
theorem C3_theorem :
    learning_time_algorithm [c3Exam] c3Settings c3Now = .finished c3State1 ∧
    0 < c3State1.blocks_added ∧
    learning_time_algorithm c3State1.events c3Settings c3Now =
      .raised "TypeError: cannot compare offset-naive and offset-aware datetimes"
        ⟨c3State1.events, 1, 0, 0, []⟩ := by
  refine ⟨?_, by norm_num [c3State1], ?_⟩ <;>
    norm_num [learning_time_algorithm, exams_fold, exam_step, main_loop, ext_loop, schedule_day,
      scheduled_today_for_exam, sumE, filterE, dur_hours, preferred_slot_free, general_search,
      sort_slots, free_slots, fsGo, events_on, make_block, addBlock, upsert, removeAll,
      select_exams, exam_filter, exam_sort_le, sort_compat, prio_get, max_exam_priority,
      int_range, py_lt, py_le, to_dt, to_dt_opt, dateOf, time_of_day, weekdayOf, effEnd,
      day_start_utc, day_end_utc, liftSt, c3Exam, c3Settings, c3Now, c3State1, c3Block,
      min_def, max_def, Bind.bind, Except.bind, Pure.pure, Except.pure, Int.fdiv_eq_ediv] <;>
    rfl

/-- C4 — the claim says a run removes, before any allocation, exactly the
unlocked events whose title matches "Learning for {examTitle}".
Counterexample: `c4Stale` is unlocked, starts in the future, and its title
matches the convention for `c4Exam`, yet the run (which identifies blocks
by `exam_id`, not by title, and `c4Stale.exam_id` is null) finishes with
the stale block still present. -/
theorem C4_counterexample :
    c4Stale.locked = false ∧
    c4Stale.title = "Learning for " ++ c4Exam.title ∧
    c4Now < (to_dt c4Stale.start).min ∧
    (stateOf (learning_time_algorithm [c4Exam, c4Stale] c4Settings c4Now)).map
        (fun s => s.events.any (fun e =>
          decide (e.title = c4Stale.title) && !e.locked && decide (e.start = c4Stale.start)))
      = some true := by
  refine ⟨rfl, rfl, by norm_num [to_dt, c4Stale, c4Now], ?_⟩
  norm_num [learning_time_algorithm, exams_fold, exam_step, main_loop, ext_loop, schedule_day,
    scheduled_today_for_exam, sumE, filterE, dur_hours, preferred_slot_free, general_search,
    sort_slots, free_slots, fsGo, events_on, make_block, addBlock, upsert, removeAll,
    select_exams, exam_filter, exam_sort_le, sort_compat, prio_get, max_exam_priority,
    int_range, py_lt, py_le, to_dt, to_dt_opt, dateOf, time_of_day, weekdayOf, effEnd,
    day_start_utc, day_end_utc, liftSt, stateOf, c4Exam, c4Stale, c3Exam, c3Settings,
    c4Settings, c4Now,
    min_def, max_def, Bind.bind, Except.bind, Pure.pure, Except.pure, Int.fdiv_eq_ediv]

/-- C8 — an exam with zero remaining hours at entry is counted in
`exams_processed` and gets no blocks, but the claim's third conjunct fails:
the `continue` of line 98 skips the success bookkeeping of lines 330–333,
so the exam does not appear in the per-exam results map at all (the run
below finishes with `successes = []`). -/
theorem C8_counterexample :
    prio_get c8Settings.priority_settings c8Exam.priority = some c8Prio ∧
    c8Prio.total_hours_to_learn = 0 ∧
    c8Now < (to_dt c8Exam.start).min ∧
    learning_time_algorithm [c8Exam] c8Settings c8Now =
      .finished ⟨[c8Exam], 1, 0, 0, []⟩ := by
  refine ⟨by norm_num [prio_get, c8Settings, c8Prio, c8Exam, c3Exam], rfl,
    by norm_num [to_dt, c8Exam, c3Exam, c8Now], ?_⟩
  norm_num [learning_time_algorithm, exams_fold, exam_step, main_loop, ext_loop, schedule_day,
    scheduled_today_for_exam, sumE, filterE, dur_hours, preferred_slot_free, general_search,
    sort_slots, free_slots, fsGo, events_on, make_block, addBlock, upsert, removeAll,
    select_exams, exam_filter, exam_sort_le, sort_compat, prio_get, max_exam_priority,
    int_range, py_lt, py_le, to_dt, to_dt_opt, dateOf, time_of_day, weekdayOf, effEnd,
    day_start_utc, day_end_utc, liftSt, c8Exam, c8Prio, c3Exam, c8Settings, c8Now,
    min_def, max_def, Bind.bind, Except.bind, Pure.pure, Except.pure, Int.fdiv_eq_ediv]

/-- C9 — the preferred-slot overlap check does not evaluate without error:
with the run's actual naive preferred window it raises on the very first
comparison against an aware event time; and even with an awareness-matching
window, an event lacking an end is *not* treated as instantaneous — `to_dt`
returns `None` for the missing end, and the second comparison raises
instead of substituting the start.  A full run over a day containing such
an event therefore raises a `TypeError`. -/
theorem C9_theorem :
    c9Event.end_ = none ∧
    preferred_slot_free ⟨19 * 1440 + 1080, false⟩ ⟨19 * 1440 + 1200, false⟩ [c9Event] =
      .error "TypeError: cannot compare offset-naive and offset-aware datetimes" ∧
    preferred_slot_free ⟨19 * 1440 + 1080, true⟩ ⟨19 * 1440 + 1200, true⟩ [c9Event] =
      .error "TypeError: unsupported operand types for +: NoneType and timedelta" ∧
    (match learning_time_algorithm c9Events c9Settings c9Now with
      | .raised m _ => m
      | _ => "") = "TypeError: cannot compare offset-naive and offset-aware datetimes" := by
  refine ⟨rfl, ?_, ?_, ?_⟩ <;>
    norm_num [learning_time_algorithm, exams_fold, exam_step, main_loop, ext_loop, schedule_day,
      scheduled_today_for_exam, sumE, filterE, dur_hours, preferred_slot_free, general_search,
      sort_slots, free_slots, fsGo, events_on, make_block, addBlock, upsert, removeAll,
      select_exams, exam_filter, exam_sort_le, sort_compat, prio_get, max_exam_priority,
      int_range, py_lt, py_le, to_dt, to_dt_opt, dateOf, time_of_day, weekdayOf, effEnd,
      day_start_utc, day_end_utc, liftSt, c9Event, c9Events, c9Settings, c9Now, c3Exam, c3Settings,
      min_def, max_def, Bind.bind, Except.bind, Pure.pure, Except.pure, Int.fdiv_eq_ediv]

/-! ### Basic lemmas about the time model -/

theorem dateOf_eq_floor (m : ℚ) : dateOf m = ⌊m / 1440⌋ := by
  have h : m / 1440 = ((m.num : ℚ) / ((1440 * m.den : ℕ) : ℚ)) := by
    conv_lhs => rw [← Rat.num_div_den m]
    rw [div_div]
    push_cast
    ring_nf
  rw [dateOf, Int.fdiv_eq_ediv _ (by positivity), h, Rat.floor_intCast_div_natCast]
  push_cast
  rfl

theorem dateOf_eq_iff {m : ℚ} {d : ℤ} :
    dateOf m = d ↔ (d : ℚ) * 1440 ≤ m ∧ m < ((d : ℚ) + 1) * 1440 := by
  rw [dateOf_eq_floor, Int.floor_eq_iff, le_div_iff (by norm_num : (0:ℚ) < 1440),
    div_lt_iff (by norm_num : (0:ℚ) < 1440)]

theorem zurichOffset_cases (d : ℤ) : zurichOffset d = 60 ∨ zurichOffset d = 120 := by
  rw [zurichOffset]
  split <;> simp

theorem day_start_le_day_end (d : ℤ) : day_start_utc d ≤ day_end_utc d := by
  rw [day_start_utc, day_end_utc]
  push_cast
  linarith

/-! ### Lemmas about the exception paths -/

/-- The past/future split of line 72 compares an aware instant with the
naive `datetime.now()`, so it only succeeds on an empty block list. -/
theorem filterE_past_ok {now : ℚ} {l l2 : List Event}
    (h : filterE (fun b => py_lt (to_dt b.start) ⟨now, false⟩) l = .ok l2) :
    l = [] ∧ l2 = [] := by
  cases l with
  | nil =>
    refine ⟨rfl, ?_⟩
    simpa [filterE] using h.symm
  | cons a rest =>
    simp [filterE, py_lt, to_dt, Bind.bind, Except.bind] at h

/-- The preferred-window check of lines 145–153 runs with a naive window,
so against any event it raises; it only returns (and returns `true`) on a
day without events. -/
theorem preferred_free_ok {ps pe : PyDT} (hpe : pe.aware = false) {l : List Event} {b : Bool}
    (h : preferred_slot_free ps pe l = .ok b) : l = [] ∧ b = true := by
  cases l with
  | nil =>
    refine ⟨rfl, ?_⟩
    simpa [preferred_slot_free] using h.symm
  | cons e rest =>
    simp [preferred_slot_free, py_le, to_dt, hpe, Bind.bind, Except.bind] at h

/-- A successful duration sum records blocks with ends, and its value is
the pure sum over effective ends. -/
theorem sumE_dur_ok {l : List Event} {q : ℚ} (h : sumE dur_hours l = .ok q) :
    q = (l.map (fun b => (effEnd b - (to_dt b.start).min) / 60)).sum := by
  induction l generalizing q with
  | nil =>
    simp [sumE] at h
    simp [h.symm]
  | cons a rest ih =>
    cases hae : a.end_ with
    | none => simp [sumE, dur_hours, hae, Bind.bind, Except.bind] at h
    | some e =>
      rw [sumE] at h
      cases hr : sumE dur_hours rest with
      | error m => simp [dur_hours, hae, hr, Bind.bind, Except.bind] at h
      | ok y =>
        simp [dur_hours, hae, hr, Bind.bind, Except.bind] at h
        simp [← h, ih hr, effEnd, hae]

/-- A successful `scheduled_today_for_exam` equals the pure `linked_hours`. -/
theorem scheduled_today_ok {evts : List Event} {examId day : ℤ} {q : ℚ}
    (h : scheduled_today_for_exam evts examId day = .ok q) :
    q = linked_hours evts examId day := by
  rw [linked_hours]
  exact sumE_dur_ok h

/-! ### Lemmas about `free_slots` -/

/-- Any all-day event in the processed list empties the sweep. -/
theorem fsGo_allday {dayEnd : ℚ} {l : List Event} (e0 : Event) (h0 : e0 ∈ l)
    (ha : e0.all_day = true) : ∀ cs acc, fsGo dayEnd l cs acc = [] := by
  induction l with
  | nil => cases h0
  | cons e rest ih =>
    intro cs acc
    rcases List.mem_cons.mp h0 with rfl | hm
    · simp [fsGo, ha]
    · by_cases he : e.all_day
      · simp [fsGo, he]
      · simp only [fsGo, he, if_false, Bool.false_eq_true]
        exact ih hm _ _

/-- `free_slots` returns `[]` whenever some event starting on the day is
flagged all-day (utils.py line 200). -/
theorem free_slots_allday {evts : List Event} {d : ℤ} (e0 : Event) (h0 : e0 ∈ evts)
    (hd : dateOf (to_dt e0.start).min = d) (ha : e0.all_day = true) :
    free_slots evts d = [] := by
  apply fsGo_allday e0 _ ha
  have hmem : e0 ∈ events_on evts d := List.mem_filter.mpr ⟨h0, by simp [hd]⟩
  exact ((List.mergeSort_perm _ _).mem_iff).mpr hmem

/-- Structure of every slot the sweep emits: it begins at or after the
cursor, is well-formed, ends at the day end or 30 minutes before some
event's start, and keeps the 30-minute margin to every event of the
(sorted) list. -/
theorem fsGo_mem {dayEnd : ℚ} :
    ∀ (l : List Event) (cs : ℚ) (acc : List (ℚ × ℚ))
      (_ : l.Pairwise (fun a b => (to_dt a.start).min ≤ (to_dt b.start).min))
      (sl : ℚ × ℚ), sl ∈ fsGo dayEnd l cs acc →
      sl ∈ acc ∨
        (cs ≤ sl.1 ∧ sl.1 ≤ sl.2 ∧
         (sl.2 = dayEnd ∨ ∃ e ∈ l, sl.2 = (to_dt e.start).min - 30) ∧
         (∀ e ∈ l, sl.2 ≤ (to_dt e.start).min - 30 ∨ effEnd e + 30 ≤ sl.1)) := by
  intro l
  induction l with
  | nil =>
    intro cs acc _ sl hmem
    simp only [fsGo] at hmem
    by_cases hcs : cs ≤ dayEnd
    · rw [if_pos hcs] at hmem
      rcases List.mem_append.mp hmem with h | h
      · exact Or.inl h
      · have hsl : sl = (cs, dayEnd) := by simpa using h
        subst hsl
        exact Or.inr ⟨le_refl _, hcs, Or.inl rfl, by simp⟩
    · rw [if_neg hcs] at hmem
      exact Or.inl hmem
  | cons e rest ih =>
    intro cs acc hsort sl hmem
    simp only [fsGo] at hmem
    by_cases hall : e.all_day
    · rw [if_pos hall] at hmem
      cases hmem
    · rw [if_neg hall] at hmem
      obtain ⟨hse, hrest⟩ := List.pairwise_cons.mp hsort
      rcases ih (max cs (effEnd e + 30))
          (if cs ≤ (to_dt e.start).min - 30 then acc ++ [(cs, (to_dt e.start).min - 30)] else acc)
          hrest sl hmem with hacc | ⟨h1, h2, h3, h4⟩
      · by_cases hgap : cs ≤ (to_dt e.start).min - 30
        · rw [if_pos hgap] at hacc
          rcases List.mem_append.mp hacc with h | h
          · exact Or.inl h
          · have hsl : sl = (cs, (to_dt e.start).min - 30) := by simpa using h
            subst hsl
            refine Or.inr ⟨le_refl _, hgap, Or.inr ⟨e, List.mem_cons_self _ _, rfl⟩, ?_⟩
            intro e2 he2
            rcases List.mem_cons.mp he2 with rfl | he2
            · exact Or.inl (le_refl _)
            · exact Or.inl (by simpa using sub_le_sub_right (hse e2 he2) 30)
        · rw [if_neg hgap] at hacc
          exact Or.inl hacc
      · refine Or.inr ⟨le_trans (le_max_left _ _) h1, h2, ?_, ?_⟩
        · rcases h3 with h3 | ⟨e2, he2, h3⟩
          · exact Or.inl h3
          · exact Or.inr ⟨e2, List.mem_cons_of_mem _ he2, h3⟩
        · intro e2 he2
          rcases List.mem_cons.mp he2 with rfl | he2
          · exact Or.inr (le_trans (le_max_right _ _) h1)
          · exact h4 e2 he2

/-- Sortedness of the day's event list inside `free_slots`. -/
theorem events_today_sorted (evts : List Event) (d : ℤ) :
    ((events_on evts d).mergeSort
        (fun a b => decide ((to_dt a.start).min ≤ (to_dt b.start).min))).Pairwise
      (fun a b => (to_dt a.start).min ≤ (to_dt b.start).min) := by
  have h := @List.sorted_mergeSort Event
    (fun a b : Event => decide ((to_dt a.start).min ≤ (to_dt b.start).min))
    (fun a b c h1 h2 => by
      simp only [decide_eq_true_eq] at h1 h2 ⊢
      exact le_trans h1 h2)
    (fun a b => by
      simp only [Bool.or_eq_true, decide_eq_true_eq]
      exact le_total _ _)
    (events_on evts d)
  exact h.imp (fun hab => by simpa using hab)

/-- Every slot of `free_slots` starts at or after the local day start, is
well formed, ends at the day end or just before some same-day event, and
keeps the 30-minute margin to every event that starts on the day. -/
theorem free_slots_mem {evts : List Event} {d : ℤ} {sl : ℚ × ℚ}
    (h : sl ∈ free_slots evts d) :
    day_start_utc d ≤ sl.1 ∧ sl.1 ≤ sl.2 ∧
    (sl.2 = day_end_utc d ∨ ∃ e ∈ events_on evts d, sl.2 = (to_dt e.start).min - 30) ∧
    (∀ e ∈ events_on evts d, sl.2 ≤ (to_dt e.start).min - 30 ∨ effEnd e + 30 ≤ sl.1) := by
  rcases fsGo_mem _ _ _ (events_today_sorted evts d) sl h with hacc | ⟨h1, h2, h3, h4⟩
  · cases hacc
  · refine ⟨h1, h2, ?_, ?_⟩
    · rcases h3 with h3 | ⟨e2, he2, h3⟩
      · exact Or.inl h3
      · exact Or.inr ⟨e2, ((List.mergeSort_perm _ _).mem_iff).mp he2, h3⟩
    · intro e2 he2
      exact h4 e2 (((List.mergeSort_perm _ _).mem_iff).mpr he2)

/-- Every event starting on day `d` has its start instant inside
`[d·1440, (d+1)·1440)`. -/
theorem events_on_start_lt {evts : List Event} {d : ℤ} {e : Event}
    (h : e ∈ events_on evts d) :
    (d : ℚ) * 1440 ≤ (to_dt e.start).min ∧ (to_dt e.start).min < ((d : ℚ) + 1) * 1440 := by
  have hd : dateOf (to_dt e.start).min = d := by
    have := (List.mem_filter.mp h).2
    simpa using this
  exact dateOf_eq_iff.mp hd

/-- A committed fallback block starts on the day `free_slots` was asked
about: slot starts lie within the day's UTC bounds. -/
theorem free_slots_start_date {evts : List Event} {d : ℤ} {sl : ℚ × ℚ}
    (h : sl ∈ free_slots evts d) : dateOf sl.1 = d := by
  obtain ⟨h1, h2, h3, _⟩ := free_slots_mem h
  have hz := zurichOffset_cases d
  rw [dateOf_eq_iff]
  constructor
  · refine le_trans ?_ h1
    rw [day_start_utc]
    push_cast
    rcases hz with hz | hz <;> rw [hz] <;> push_cast <;> linarith
  · rcases h3 with h3 | ⟨e2, he2, h3⟩
    · have : sl.1 ≤ day_end_utc d := h3 ▸ h2
      refine lt_of_le_of_lt this ?_
      rw [day_end_utc]
      rcases hz with hz | hz <;> rw [hz] <;> push_cast <;> linarith
    · have he := (events_on_start_lt he2).2
      have : sl.1 ≤ (to_dt e2.start).min - 30 := h3 ▸ h2
      linarith

/-- C10 — `free_slots` uses the hard-coded 08:00–22:00 Europe/Zurich day
window converted to UTC, independently of any settings: on a day with no
events it returns exactly one slot from 08:00 to 22:00 Zurich time
expressed as UTC instants (`day_start_utc`/`day_end_utc` unfold to
`day·1440 + 480 − zurichOffset day` and `day·1440 + 1320 − zurichOffset
day`). -/
theorem C10_theorem (events : List Event) (day : ℤ)
    (h : ∀ e ∈ events, dateOf (to_dt e.start).min ≠ day) :
    free_slots events day = [(day_start_utc day, day_end_utc day)] ∧
    day_start_utc day = ((day * 1440 + 480 - zurichOffset day : ℤ) : ℚ) ∧
    day_end_utc day = ((day * 1440 + 1320 - zurichOffset day : ℤ) : ℚ) := by
  have h0 : events_on events day = [] := by
    rw [events_on, List.filter_eq_nil]
    intro e he
    simpa using h e he
  refine ⟨?_, rfl, rfl⟩
  rw [free_slots, h0]
  simp [fsGo, day_start_le_day_end day]

/-- Witness for C10 at a concrete input: an event on day 20 does not start
on day 19, and the free slots of day 19 are the one Zurich winter-time
window. -/
theorem C10_theorem_witness :
    free_slots [c3Exam] 19 = [(day_start_utc 19, day_end_utc 19)] := by
  refine (C10_theorem [c3Exam] 19 ?_).1
  intro e he
  simp only [List.mem_singleton] at he
  subst he
  norm_num [c3Exam, to_dt, dateOf, Int.fdiv_eq_ediv]

/-! ### Behaviour of a single candidate day -/

theorem le_dateOf {d : ℤ} {m : ℚ} (h : (d : ℚ) * 1440 ≤ m) : d ≤ dateOf m := by
  rw [dateOf_eq_floor, Int.le_floor]
  rw [le_div_iff (by norm_num : (0:ℚ) < 1440)]
  exact h

/-- The winning slot of the largest-free-slot search (lines 182–218). -/
theorem general_search_some {rem tm : ℚ} :
    ∀ {slots : List (ℚ × ℚ)} {bs alloc : ℚ},
      general_search rem tm slots = some (bs, alloc) →
      ∃ sl ∈ slots, bs = sl.1 ∧ ¬ (sl.2 - sl.1) / 60 < 1 / 2 ∧
        alloc = min ((sl.2 - sl.1) / 60) (min rem tm) ∧ ¬ alloc < 1 / 2 := by
  intro slots
  induction slots with
  | nil => intro bs alloc h; cases h
  | cons sl rest ih =>
    intro bs alloc h
    rw [general_search] at h
    dsimp only at h
    split at h
    · obtain ⟨sl2, hm, hrest⟩ := ih h
      exact ⟨sl2, List.mem_cons_of_mem _ hm, hrest⟩
    · split at h
      · obtain ⟨sl2, hm, hrest⟩ := ih h
        exact ⟨sl2, List.mem_cons_of_mem _ hm, hrest⟩
      · cases h
        rename_i hdur halloc
        exact ⟨sl, List.mem_cons_self _ _, rfl, hdur, rfl, halloc⟩

/-- Frame facts of one candidate day: counters other than the block
counters are untouched and the working set at most gains one block. -/
theorem schedule_day_extends {cfg : AlgCfg} {ctx : ExamCtx} {day : ℤ} {ns : ℚ} {st : RunState}
    {ns2 : ℚ} {st2 : RunState}
    (h : schedule_day cfg ctx day ns st = .ok (ns2, st2)) :
    st2.exams_processed = st.exams_processed ∧ st2.successes = st.successes ∧
    (st2.events = st.events ∨
      ∃ bs be, st2.events = st.events ++ [make_block ctx.exam cfg.block_color bs be]) := by
  simp only [schedule_day, liftSt, Bind.bind, Except.bind] at h
  repeat' split at h
  all_goals (try cases h)
  all_goals try exact ⟨rfl, rfl, Or.inl rfl⟩
  all_goals exact ⟨rfl, rfl, Or.inr ⟨_, _, rfl⟩⟩

/-- A raised exception of a candidate day carries the unchanged state. -/
theorem schedule_day_error {cfg : AlgCfg} {ctx : ExamCtx} {day : ℤ} {ns : ℚ} {st : RunState}
    {m : String} {st2 : RunState}
    (h : schedule_day cfg ctx day ns st = .error (m, st2)) : st2 = st := by
  simp only [schedule_day, liftSt, Bind.bind, Except.bind] at h
  repeat' split at h
  all_goals (try cases h)
  all_goals rename_i heq
  all_goals (split at heq <;> (try cases heq) <;> simp_all)

/-- Lines 130–132: a day whose headroom is at most the minimum session
length is skipped without any placement. -/
theorem schedule_day_skip {cfg : AlgCfg} {ctx : ExamCtx} {day : ℤ} {ns : ℚ} {st : RunState}
    {q : ℚ} (hq : scheduled_today_for_exam st.events ctx.exam.id day = .ok q)
    (hle : min (ctx.max_per_day - q) (ctx.hours_left - ns) ≤ 1 / 2) :
    schedule_day cfg ctx day ns st = .ok (ns, st) := by
  simp only [schedule_day, liftSt, hq, Bind.bind, Except.bind]
  rw [if_pos hle]

/-- Full case analysis of one candidate day, for a nonnegative preferred
time (guaranteed by the `strptime("%H:%M")` parse): either nothing is
placed, or exactly one block is placed whose duration is positive and
bounded by the day's headroom, and which is anchored at the preferred time
on an event-free day or fits inside a free slot. -/
theorem liftSt_ok {α : Type} {st : RunState} {x : Except String α} {v : α}
    (h : liftSt st x = .ok v) : x = .ok v := by
  cases x <;> simp_all [liftSt]

theorem preferred_clip_duration {pref tm q maxp hl ns : ℚ} {day : ℤ}
    (hpref : 0 ≤ pref) (htmdef : tm = min (maxp - q) (hl - ns)) (htm2 : 1 / 2 < tm)
    (hclip : 1320 < time_of_day ((day : ℚ) * 1440 + pref + tm * 60)) :
    ((day : ℚ) * 1440 + 1320 - ((day : ℚ) * 1440 + pref)) / 60 ≤ min (maxp - q) (hl - ns) := by
  have hday : day ≤ dateOf ((day : ℚ) * 1440 + pref + tm * 60) := by
    apply le_dateOf
    nlinarith
  have hdayq : (day : ℚ) ≤ (dateOf ((day : ℚ) * 1440 + pref + tm * 60) : ℚ) := by
    exact_mod_cast hday
  have htod : time_of_day ((day : ℚ) * 1440 + pref + tm * 60) ≤ pref + tm * 60 := by
    rw [time_of_day]
    nlinarith
  have h1320 : (1320 : ℚ) < pref + tm * 60 := lt_of_lt_of_le hclip htod
  rw [← htmdef]
  rw [div_le_iff (by norm_num : (0:ℚ) < 60)]
  linarith

theorem fallback_block_facts {rem tm : ℚ} {evts : List Event} {day : ℤ} {bs alloc : ℚ}
    (hgs : general_search rem tm (sort_slots (free_slots evts day)) = some (bs, alloc)) :
    (∃ sl ∈ free_slots evts day, bs = sl.1 ∧ bs + alloc * 60 ≤ sl.2) ∧
    1 / 2 ≤ alloc ∧ alloc ≤ tm ∧ alloc ≤ rem := by
  obtain ⟨sl, hm, hbs, _, halloc, hmin⟩ := general_search_some hgs
  have hslm : sl ∈ free_slots evts day := ((List.mergeSort_perm _ _).mem_iff).mp hm
  have h12 : 1 / 2 ≤ alloc := not_lt.mp hmin
  have hle1 : alloc ≤ (sl.2 - sl.1) / 60 := halloc ▸ min_le_left _ _
  have hle2 : alloc ≤ tm := halloc ▸ le_trans (min_le_right _ _) (min_le_right _ _)
  have hle3 : alloc ≤ rem := halloc ▸ le_trans (min_le_right _ _) (min_le_left _ _)
  refine ⟨⟨sl, hslm, hbs, ?_⟩, h12, hle2, hle3⟩
  have : alloc * 60 ≤ sl.2 - sl.1 := by
    rw [div_eq_mul_inv] at hle1
    nlinarith
  rw [hbs]
  linarith

/-- Full case analysis of one candidate day, for a nonnegative preferred
time (guaranteed by the `strptime("%H:%M")` parse): either nothing is
placed, or exactly one block is placed whose duration is positive and
bounded by the day's headroom and which is anchored at the preferred time
on an event-free day or fits inside a free slot of the day. -/
theorem schedule_day_cases {cfg : AlgCfg} {ctx : ExamCtx} {day : ℤ} {ns : ℚ} {st : RunState}
    {ns2 : ℚ} {st2 : RunState}
    (hpref : 0 ≤ cfg.preferred_minutes)
    (h : schedule_day cfg ctx day ns st = .ok (ns2, st2)) :
    ∃ q, scheduled_today_for_exam st.events ctx.exam.id day = .ok q ∧
      ((ns2 = ns ∧ st2 = st) ∨
        (¬ min (ctx.max_per_day - q) (ctx.hours_left - ns) ≤ 1 / 2 ∧
         ∃ bs be,
           st2 = addBlock st (make_block ctx.exam cfg.block_color bs be) ((be - bs) / 60) ∧
           ns2 = ns + (be - bs) / 60 ∧
           0 < be - bs ∧
           (be - bs) / 60 ≤ min (ctx.max_per_day - q) (ctx.hours_left - ns) ∧
           ((events_on st.events day = [] ∧ bs = (day : ℚ) * 1440 + cfg.preferred_minutes) ∨
            (∃ sl ∈ free_slots st.events day, bs = sl.1 ∧ be ≤ sl.2)))) := by
  simp only [schedule_day, Bind.bind, Except.bind] at h
  repeat' split at h
  all_goals try cases h
  case h_2.isTrue.refl =>
    rename_i x1 v1 heqS htm
    exact ⟨v1, liftSt_ok heqS, Or.inl ⟨rfl, rfl⟩⟩
  case h_2.isFalse.isTrue.isTrue.h_2.isTrue.refl =>
    rename_i x1 v1 heqS htm hclip hd x0 v0 heqP hv
    subst hv
    obtain ⟨hempty, _⟩ := preferred_free_ok rfl (liftSt_ok heqP)
    refine ⟨v1, liftSt_ok heqS, Or.inr ⟨htm, _, _, rfl, rfl, ?_, ?_, Or.inl ⟨hempty, rfl⟩⟩⟩
    · simp only at hd ⊢
      linarith
    · simp only at hd ⊢
      exact preferred_clip_duration hpref rfl (not_le.mp htm) hclip
  case h_2.isFalse.isTrue.isTrue.h_2.isFalse.h_1.refl =>
    rename_i x2 v1 heqS htm hclip hd x1 v0 heqP hv xo heqG
    exact ⟨v1, liftSt_ok heqS, Or.inl ⟨rfl, rfl⟩⟩
  case h_2.isFalse.isTrue.isTrue.h_2.isFalse.h_2.refl =>
    rename_i x2 v1 heqS htm hclip hd x1 v0 heqP hv xo bs alloc heqG
    obtain ⟨hsl, h12, hle2, _⟩ := fallback_block_facts heqG
    refine ⟨v1, liftSt_ok heqS, Or.inr ⟨htm, bs, bs + alloc * 60, ?_, ?_, by linarith, ?_, Or.inr hsl⟩⟩
    · rw [show (bs + alloc * 60 - bs) / 60 = alloc by field_simp]
    · rw [show (bs + alloc * 60 - bs) / 60 = alloc by field_simp]
    · rw [show (bs + alloc * 60 - bs) / 60 = alloc by field_simp]
      exact hle2
  case h_2.isFalse.isTrue.isFalse.isTrue.refl =>
    rename_i x1 v1 heqS htm hclip hd hft
    exact absurd hft (by simp)
  case h_2.isFalse.isTrue.isFalse.isFalse.h_1.refl =>
    rename_i x1 v1 heqS htm hclip hd hft xo heqG
    exact ⟨v1, liftSt_ok heqS, Or.inl ⟨rfl, rfl⟩⟩
  case h_2.isFalse.isTrue.isFalse.isFalse.h_2.refl =>
    rename_i x1 v1 heqS htm hclip hd hft xo bs alloc heqG
    obtain ⟨hsl, h12, hle2, _⟩ := fallback_block_facts heqG
    refine ⟨v1, liftSt_ok heqS, Or.inr ⟨htm, bs, bs + alloc * 60, ?_, ?_, by linarith, ?_, Or.inr hsl⟩⟩
    · rw [show (bs + alloc * 60 - bs) / 60 = alloc by field_simp]
    · rw [show (bs + alloc * 60 - bs) / 60 = alloc by field_simp]
    · rw [show (bs + alloc * 60 - bs) / 60 = alloc by field_simp]
      exact hle2
  case h_2.isFalse.isFalse.isTrue.h_2.isTrue.refl =>
    rename_i x1 v1 heqS htm hclip hd x0 v0 heqP hv
    subst hv
    obtain ⟨hempty, _⟩ := preferred_free_ok rfl (liftSt_ok heqP)
    refine ⟨v1, liftSt_ok heqS, Or.inr ⟨htm, _, _, rfl, rfl, ?_, ?_, Or.inl ⟨hempty, rfl⟩⟩⟩
    · simp only at hd ⊢
      linarith
    · simp only at hd ⊢
      rw [show ((day : ℚ) * 1440 + cfg.preferred_minutes +
          min (ctx.max_per_day - v1) (ctx.hours_left - ns) * 60 -
          ((day : ℚ) * 1440 + cfg.preferred_minutes)) / 60 =
          min (ctx.max_per_day - v1) (ctx.hours_left - ns) by field_simp]
  case h_2.isFalse.isFalse.isTrue.h_2.isFalse.h_1.refl =>
    rename_i x2 v1 heqS htm hclip hd x1 v0 heqP hv xo heqG
    exact ⟨v1, liftSt_ok heqS, Or.inl ⟨rfl, rfl⟩⟩
  case h_2.isFalse.isFalse.isTrue.h_2.isFalse.h_2.refl =>
    rename_i x2 v1 heqS htm hclip hd x1 v0 heqP hv xo bs alloc heqG
    obtain ⟨hsl, h12, hle2, _⟩ := fallback_block_facts heqG
    refine ⟨v1, liftSt_ok heqS, Or.inr ⟨htm, bs, bs + alloc * 60, ?_, ?_, by linarith, ?_, Or.inr hsl⟩⟩
    · rw [show (bs + alloc * 60 - bs) / 60 = alloc by field_simp]
    · rw [show (bs + alloc * 60 - bs) / 60 = alloc by field_simp]
    · rw [show (bs + alloc * 60 - bs) / 60 = alloc by field_simp]
      exact hle2
  case h_2.isFalse.isFalse.isFalse.isTrue.refl =>
    rename_i x1 v1 heqS htm hclip hd hft
    exact absurd hft (by simp)
  case h_2.isFalse.isFalse.isFalse.isFalse.h_1.refl =>
    rename_i x1 v1 heqS htm hclip hd hft xo heqG
    exact ⟨v1, liftSt_ok heqS, Or.inl ⟨rfl, rfl⟩⟩
  case h_2.isFalse.isFalse.isFalse.isFalse.h_2.refl =>
    rename_i x1 v1 heqS htm hclip hd hft xo bs alloc heqG
    obtain ⟨hsl, h12, hle2, _⟩ := fallback_block_facts heqG
    refine ⟨v1, liftSt_ok heqS, Or.inr ⟨htm, bs, bs + alloc * 60, ?_, ?_, by linarith, ?_, Or.inr hsl⟩⟩
    · rw [show (bs + alloc * 60 - bs) / 60 = alloc by field_simp]
    · rw [show (bs + alloc * 60 - bs) / 60 = alloc by field_simp]
    · rw [show (bs + alloc * 60 - bs) / 60 = alloc by field_simp]
      exact hle2

/-! ### Frame properties of the loops -/

theorem extBy_refl {e : Event} {c : String} {a : List Event} : ExtBy e c a a :=
  ⟨[], by simp, by simp⟩

theorem extBy_trans {e : Event} {c : String} {a b d : List Event}
    (h1 : ExtBy e c a b) (h2 : ExtBy e c b d) : ExtBy e c a d := by
  obtain ⟨t1, rfl, ht1⟩ := h1
  obtain ⟨t2, rfl, ht2⟩ := h2
  refine ⟨t1 ++ t2, by simp, ?_⟩
  intro blk hm
  rcases List.mem_append.mp hm with hm | hm
  · exact ht1 blk hm
  · exact ht2 blk hm

theorem extBy_of_schedule_day {cfg : AlgCfg} {ctx : ExamCtx} {day : ℤ} {ns : ℚ}
    {st : RunState} {ns2 : ℚ} {st2 : RunState}
    (h : schedule_day cfg ctx day ns st = .ok (ns2, st2)) :
    ExtBy ctx.exam cfg.block_color st.events st2.events := by
  rcases (schedule_day_extends h).2.2 with he | ⟨bs, be, he⟩
  · rw [he]; exact extBy_refl
  · exact ⟨[make_block ctx.exam cfg.block_color bs be], he, by
      intro blk hm
      simp only [List.mem_singleton] at hm
      exact ⟨bs, be, hm⟩⟩

theorem extBy_prefix {e : Event} {c : String} {a b : List Event} (h : ExtBy e c a b) :
    a <+: b := by
  obtain ⟨t, rfl, _⟩ := h
  exact ⟨t, rfl⟩

/-- Counter/result-map/working-set frame relation between two states. -/
def FrameRel (exam : Event) (color : String) (st st2 : RunState) : Prop :=
  st2.exams_processed = st.exams_processed ∧ st2.successes = st.successes ∧
  ExtBy exam color st.events st2.events

theorem frameRel_refl {e : Event} {c : String} {st : RunState} : FrameRel e c st st :=
  ⟨rfl, rfl, extBy_refl⟩

theorem frameRel_trans {e : Event} {c : String} {st1 st2 st3 : RunState}
    (h1 : FrameRel e c st1 st2) (h2 : FrameRel e c st2 st3) : FrameRel e c st1 st3 :=
  ⟨h2.1.trans h1.1, h2.2.1.trans h1.2.1, extBy_trans h1.2.2 h2.2.2⟩

theorem frameRel_schedule_day {cfg : AlgCfg} {ctx : ExamCtx} {day : ℤ} {ns : ℚ}
    {st : RunState} {ns2 : ℚ} {st2 : RunState}
    (h : schedule_day cfg ctx day ns st = .ok (ns2, st2)) :
    FrameRel ctx.exam cfg.block_color st st2 :=
  ⟨(schedule_day_extends h).1, (schedule_day_extends h).2.1, extBy_of_schedule_day h⟩

/-- Frame facts of the main backward loop: it never touches the processed
counter or the results map, and only appends blocks for the current exam;
this also holds for the partial state carried by a raised exception. -/
theorem main_loop_frame {cfg : AlgCfg} {ctx : ExamCtx} {ws we : ℚ} :
    ∀ (offsets : List ℤ) (ns : ℚ) (st : RunState) (r : Except (String × RunState) (ℚ × RunState)),
      main_loop cfg ctx ws we offsets ns st = r →
      (∀ ns2 st2, r = .ok (ns2, st2) → FrameRel ctx.exam cfg.block_color st st2) ∧
      (∀ m st2, r = .error (m, st2) → FrameRel ctx.exam cfg.block_color st st2) := by
  intro offsets
  induction offsets with
  | nil =>
    intro ns st r h
    rw [main_loop] at h
    subst h
    constructor
    · intro ns2 st2 h2
      cases h2
      exact frameRel_refl
    · intro m st2 h2
      cases h2
  | cons k rest ih =>
    intro ns st r h
    rw [main_loop] at h
    split at h
    · exact ih ns st r h
    · split at h
      · exact ih ns st r h
      · split at h
        · subst h
          constructor
          · intro ns2 st2 h2
            cases h2
            exact frameRel_refl
          · intro m st2 h2
            cases h2
        · simp only [Bind.bind, Except.bind] at h
          cases hs : schedule_day cfg ctx (dateOf (we - (k : ℚ) * 1440)) ns st with
          | error err =>
            rw [hs] at h
            subst h
            constructor
            · intro ns2 st2 h2
              cases h2
            · intro m st2 h2
              injection h2 with h3
              subst h3
              have := schedule_day_error hs
              subst this
              exact frameRel_refl
          | ok x =>
            obtain ⟨xn, xs⟩ := x
            rw [hs] at h
            dsimp only at h
            have hfr := frameRel_schedule_day hs
            obtain ⟨hok, herr⟩ := ih xn xs r h
            constructor
            · intro ns2 st2 h2
              exact frameRel_trans hfr (hok ns2 st2 h2)
            · intro m st2 h2
              exact frameRel_trans hfr (herr m st2 h2)

/-- Frame facts of the extension loop (lines 223–323). -/
theorem ext_loop_frame {cfg : AlgCfg} {ctx : ExamCtx} {we : ℚ} :
    ∀ (offsets : List ℤ) (ns : ℚ) (st : RunState) (r : Except (String × RunState) (ℚ × RunState)),
      ext_loop cfg ctx we offsets ns st = r →
      (∀ ns2 st2, r = .ok (ns2, st2) → FrameRel ctx.exam cfg.block_color st st2) ∧
      (∀ m st2, r = .error (m, st2) → FrameRel ctx.exam cfg.block_color st st2) := by
  intro offsets
  induction offsets with
  | nil =>
    intro ns st r h
    rw [ext_loop] at h
    subst h
    constructor
    · intro ns2 st2 h2
      cases h2
      exact frameRel_refl
    · intro m st2 h2
      cases h2
  | cons k rest ih =>
    intro ns st r h
    rw [ext_loop] at h
    split at h
    · subst h
      constructor
      · intro ns2 st2 h2
        cases h2
        exact frameRel_refl
      · intro m st2 h2
        cases h2
    · simp only [Bind.bind, Except.bind] at h
      cases hs : schedule_day cfg ctx (dateOf (we - (k : ℚ) * 1440)) ns st with
      | error err =>
        rw [hs] at h
        subst h
        constructor
        · intro ns2 st2 h2
          cases h2
        · intro m st2 h2
          injection h2 with h3
          subst h3
          have := schedule_day_error hs
          subst this
          exact frameRel_refl
      | ok x =>
        obtain ⟨xn, xs⟩ := x
        rw [hs] at h
        dsimp only at h
        have hfr := frameRel_schedule_day hs
        obtain ⟨hok, herr⟩ := ih xn xs r h
        constructor
        · intro ns2 st2 h2
          exact frameRel_trans hfr (hok ns2 st2 h2)
        · intro m st2 h2
          exact frameRel_trans hfr (herr m st2 h2)


/-- A successful `exam_step` only appends generated blocks for this exam,
bumps `exams_processed` exactly when the exam's priority has a setting, and
touches at most this exam's entry of the results map. -/
theorem exam_step_ok_spec {cfg : AlgCfg} {prios : List PrioritySetting} {now : ℚ}
    {st : RunState} {e : Event} {st2 : RunState}
    (h : exam_step cfg prios now st e = .ok st2) :
    ExtBy e cfg.block_color st.events st2.events ∧
    st2.exams_processed = st.exams_processed +
      (if (prio_get prios e.priority).isSome then 1 else 0) ∧
    (st2.successes = st.successes ∨
      ∃ v, st2.successes = upsert e.title v st.successes) := by
  simp only [exam_step, Bind.bind, Except.bind] at h
  cases hp : prio_get prios e.priority with
  | none =>
    rw [hp] at h
    dsimp only at h
    cases h
    simp [extBy_refl]
  | some ps =>
    rw [hp] at h
    dsimp only at h
    cases hPB : filterE (fun b => py_lt (to_dt b.start) ⟨now, false⟩)
        (List.filter (fun b => b.exam_id == some e.id) st.events) with
    | error m1 =>
      rw [hPB] at h
      simp only [liftSt] at h
      cases h
    | ok pastB =>
      obtain ⟨hEB, hpastB⟩ := filterE_past_ok hPB
      subst hpastB
      rw [hPB] at h
      rw [hEB] at h
      simp only [filterE, sumE, liftSt, List.filter_nil, removeAll, List.foldl_nil] at h
      split at h
      · cases h
        exact ⟨extBy_refl, by simp, Or.inl rfl⟩
      · split at h
        · cases h
        · rename_i v heqML
          have hML := (main_loop_frame _ _ _ _ heqML).1 v.1 v.2 (by rw [Prod.mk.eta])
          obtain ⟨hproc3, hsucc3, hext3⟩ := hML
          split at h
          · split at h
            · cases h
            · rename_i w heqEL
              have hEL := (ext_loop_frame _ _ _ _ heqEL).1 w.1 w.2 (by rw [Prod.mk.eta])
              obtain ⟨hproc4, hsucc4, hext4⟩ := hEL
              cases h
              refine ⟨extBy_trans hext3 hext4, ?_, Or.inr
                ⟨(decide (0 ⊔ (ps.total_hours_to_learn - 0) ≤ w.1 + 0), w.1 + 0,
                  0 ⊔ (ps.total_hours_to_learn - 0)), ?_⟩⟩
              · simp only [hproc4, hproc3]; simp
              · dsimp only; rw [hsucc4, hsucc3]
          · cases h
            refine ⟨hext3, ?_, Or.inr
              ⟨(decide (0 ⊔ (ps.total_hours_to_learn - 0) ≤ v.1 + 0), v.1 + 0,
                0 ⊔ (ps.total_hours_to_learn - 0)), ?_⟩⟩
            · simp only [hproc3]; simp
            · dsimp only; rw [hsucc3]

/-- A failing `exam_step` also leaves behind exactly the original working
set plus generated blocks for this exam. -/
theorem exam_step_error_spec {cfg : AlgCfg} {prios : List PrioritySetting} {now : ℚ}
    {st : RunState} {e : Event} {m : String} {st2 : RunState}
    (h : exam_step cfg prios now st e = .error (m, st2)) :
    ExtBy e cfg.block_color st.events st2.events := by
  simp only [exam_step, Bind.bind, Except.bind] at h
  cases hp : prio_get prios e.priority with
  | none =>
    rw [hp] at h
    dsimp only at h
    cases h
  | some ps =>
    rw [hp] at h
    dsimp only at h
    cases hPB : filterE (fun b => py_lt (to_dt b.start) ⟨now, false⟩)
        (List.filter (fun b => b.exam_id == some e.id) st.events) with
    | error m1 =>
      rw [hPB] at h
      simp only [liftSt] at h
      cases h
      exact extBy_refl
    | ok pastB =>
      obtain ⟨hEB, hpastB⟩ := filterE_past_ok hPB
      subst hpastB
      rw [hPB] at h
      rw [hEB] at h
      simp only [filterE, sumE, liftSt, List.filter_nil, removeAll, List.foldl_nil] at h
      split at h
      · cases h
      · split at h
        · rename_i err heqML
          have hML := (main_loop_frame _ _ _ _ heqML).2 err.1 err.2 (by rw [Prod.mk.eta])
          cases h
          exact hML.2.2
        · rename_i v heqML
          have hML := (main_loop_frame _ _ _ _ heqML).1 v.1 v.2 (by rw [Prod.mk.eta])
          split at h
          · split at h
            · rename_i err heqEL
              have hEL := (ext_loop_frame _ _ _ _ heqEL).2 err.1 err.2 (by rw [Prod.mk.eta])
              cases h
              exact extBy_trans hML.2.2 hEL.2.2
            · cases h
          · cases h

/-- The exam loop only appends events, and on success counts exactly the
exams whose priority level has a configured setting. -/
theorem exams_fold_spec {cfg : AlgCfg} {prios : List PrioritySetting} {now : ℚ} :
    ∀ (exams : List Event) (st : RunState) (r : Except (String × RunState) RunState),
      exams_fold cfg prios now exams st = r →
      (∀ st2, r = .ok st2 → (∃ t, st2.events = st.events ++ t) ∧
        st2.exams_processed = st.exams_processed +
          exams.countP (fun e => (prio_get prios e.priority).isSome)) ∧
      (∀ m st2, r = .error (m, st2) → ∃ t, st2.events = st.events ++ t) := by
  intro exams
  induction exams with
  | nil =>
    intro st r h
    simp only [exams_fold] at h
    constructor
    · intro st2 h2
      rw [← h] at h2
      cases h2
      exact ⟨⟨[], by simp⟩, by simp⟩
    · intro m st2 h2
      rw [← h] at h2
      cases h2
  | cons e rest ih =>
    intro st r h
    simp only [exams_fold, Bind.bind, Except.bind] at h
    cases hstep : exam_step cfg prios now st e with
    | error err =>
      rw [hstep] at h
      obtain ⟨t1, ht1, _⟩ :=
        @exam_step_error_spec cfg prios now st e err.1 err.2 (by rw [hstep, Prod.mk.eta])
      constructor
      · intro st2 h2
        rw [← h] at h2
        cases h2
      · intro m st2 h2
        rw [← h] at h2
        cases h2
        exact ⟨t1, ht1⟩
    | ok st1 =>
      rw [hstep] at h
      obtain ⟨⟨t1, ht1, _⟩, hproc, _⟩ := exam_step_ok_spec hstep
      have hrest := ih st1 r h
      constructor
      · intro st2 h2
        obtain ⟨⟨t2, ht2⟩, hproc2⟩ := hrest.1 st2 h2
        refine ⟨⟨t1 ++ t2, by rw [ht2, ht1, List.append_assoc]⟩, ?_⟩
        rw [hproc2, hproc, List.countP_cons]
        by_cases hs : (prio_get prios e.priority).isSome
        · simp [hs]; ring
        · simp [hs]
      · intro m st2 h2
        obtain ⟨t2, ht2⟩ := hrest.2 m st2 h2
        exact ⟨t1 ++ t2, by rw [ht2, ht1, List.append_assoc]⟩

/-- A non-early-return outcome's final working set extends the input list:
the exam-loop dispatch of lines 50–58 never drops an event. -/
theorem run_events_prefix {cfg : AlgCfg} {prios : List PrioritySetting} {now : ℚ}
    {exams ev : List Event} {s : RunState}
    (h : stateOf
        (match exams_fold cfg prios now exams ⟨ev, 0, 0, 0, []⟩ with
          | .ok s1 => RunResult.finished s1
          | .error (m, s1) => RunResult.raised m s1) = some s) :
    ∃ t, s.events = ev ++ t := by
  split at h
  · rename_i s1 heq
    simp only [stateOf, Option.some.injEq] at h
    subst h
    exact ((exams_fold_spec _ _ _ heq).1 _ rfl).1
  · rename_i m s1 heq
    simp only [stateOf, Option.some.injEq] at h
    subst h
    exact (exams_fold_spec _ _ _ heq).2 m _ rfl

/-- C4 (amended) — no scheduling run, finished or raised, ever removes an
event: the input list survives as a prefix of the final working set, so in
particular locked blocks, past blocks, and unlocked title-matching blocks
not linked via `exam_id` are all still present afterwards. -/
theorem C4_amended {ev : List Event} {stg : Settings} {now : ℚ} {s : RunState}
    (h : stateOf (learning_time_algorithm ev stg now) = some s) :
    s.events.take ev.length = ev ∧ ∀ e ∈ ev, e ∈ s.events := by
  have hmain : ∃ t, s.events = ev ++ t := by
    unfold learning_time_algorithm at h
    split at h
    · simp [stateOf] at h
    · dsimp only at h
      rcases hc : stg.study_block_color with _ | c
      · rw [hc] at h
        dsimp only at h
        split at h
        · exact run_events_prefix h
        · simp only [stateOf, Option.some.injEq] at h
          subst h
          exact ⟨[], by simp⟩
      · rw [hc] at h
        dsimp only at h
        split at h
        · exact run_events_prefix h
        · simp only [stateOf, Option.some.injEq] at h
          subst h
          exact ⟨[], by simp⟩
  obtain ⟨t, ht⟩ := hmain
  rw [ht]
  exact ⟨List.take_left ev t, fun e he => List.mem_append_left _ he⟩

/-- Witness for C4 (amended): the `c8` run finishes and its input event is
still the first element of the final working set. -/
theorem C4_amended_witness :
    stateOf (learning_time_algorithm [c8Exam] c8Settings c8Now) =
      some ⟨[c8Exam], 1, 0, 0, []⟩ ∧
    (RunState.mk [c8Exam] 1 0 0 []).events.take [c8Exam].length = [c8Exam] ∧
    ∀ e ∈ [c8Exam], e ∈ (RunState.mk [c8Exam] 1 0 0 []).events := by
  have hrun : stateOf (learning_time_algorithm [c8Exam] c8Settings c8Now) =
      some ⟨[c8Exam], 1, 0, 0, []⟩ := by
    norm_num [stateOf, learning_time_algorithm, exams_fold, exam_step, main_loop, ext_loop,
      schedule_day, scheduled_today_for_exam, sumE, filterE, dur_hours, preferred_slot_free,
      general_search, sort_slots, free_slots, fsGo, events_on, make_block, addBlock, upsert,
      removeAll, select_exams, exam_filter, exam_sort_le, sort_compat, prio_get,
      max_exam_priority, int_range, py_lt, py_le, to_dt, to_dt_opt, dateOf, time_of_day,
      weekdayOf, effEnd, day_start_utc, day_end_utc, liftSt, c8Exam, c8Prio, c3Exam,
      c8Settings, c8Now, min_def, max_def, Bind.bind, Except.bind, Pure.pure, Except.pure,
      Int.fdiv_eq_ediv]
  exact ⟨hrun, C4_amended hrun⟩

/-- On a finished run the exam counter equals the number of selected exams
whose priority level has a configured setting. -/
theorem run_finished_count {cfg : AlgCfg} {prios : List PrioritySetting} {now : ℚ}
    {exams ev : List Event} {s : RunState}
    (heq : exams_fold cfg prios now exams ⟨ev, 0, 0, 0, []⟩ = .ok s) :
    s.exams_processed = exams.countP (fun e => (prio_get prios e.priority).isSome) := by
  have h := ((exams_fold_spec _ _ _ heq).1 _ rfl).2
  simpa using h

/-- C1 (amended) — a finished run processes exactly the exams selected by
the priority filter that carry a configured setting, with no condition on
`start` versus `now`; the selection is a permutation of the plain priority
filter (which constrains only the priority, not the start), ordered
ascending by `(priority, start)`. -/
theorem C1_amended {ev : List Event} {stg : Settings} {now : ℚ} {s : RunState}
    (h : learning_time_algorithm ev stg now = .finished s) :
    s.exams_processed =
      (select_exams ev (max_exam_priority stg.priority_settings)).countP
        (fun e => (prio_get stg.priority_settings e.priority).isSome) ∧
    (select_exams ev (max_exam_priority stg.priority_settings)).Perm
      (exam_filter ev (max_exam_priority stg.priority_settings)) ∧
    (select_exams ev (max_exam_priority stg.priority_settings)).Pairwise
      (fun a b => exam_sort_le a b = true) ∧
    (∀ e : Event, e ∈ exam_filter ev (max_exam_priority stg.priority_settings) ↔
      e ∈ ev ∧ 0 < e.priority ∧
        e.priority ≤ max_exam_priority stg.priority_settings) := by
  refine ⟨?_, ?_, ?_, ?_⟩
  · unfold learning_time_algorithm at h
    split at h
    · cases h
    · dsimp only at h
      rcases hc : stg.study_block_color with _ | c
      · rw [hc] at h
        dsimp only at h
        split at h
        · split at h
          · rename_i s1 heq
            cases h
            exact run_finished_count heq
          · cases h
        · cases h
      · rw [hc] at h
        dsimp only at h
        split at h
        · split at h
          · rename_i s1 heq
            cases h
            exact run_finished_count heq
          · cases h
        · cases h
  · exact List.mergeSort_perm _ _
  · have hs := @List.sorted_mergeSort Event exam_sort_le
      (fun a b c h1 h2 => by
        simp only [exam_sort_le, Bool.or_eq_true, Bool.and_eq_true, decide_eq_true_eq,
          beq_iff_eq] at h1 h2 ⊢
        rcases h1 with h1 | ⟨h1e, h1s⟩ <;> rcases h2 with h2 | ⟨h2e, h2s⟩
        · exact Or.inl (lt_trans h1 h2)
        · exact Or.inl (h2e ▸ h1)
        · exact Or.inl (h1e ▸ h2)
        · exact Or.inr ⟨h1e.trans h2e, le_trans h1s h2s⟩)
      (fun a b => by
        simp only [exam_sort_le, Bool.or_eq_true, Bool.and_eq_true, decide_eq_true_eq,
          beq_iff_eq]
        rcases lt_trichotomy a.priority b.priority with hlt | heq | hgt
        · exact Or.inl (Or.inl hlt)
        · rcases le_total a.start.min b.start.min with hle | hle
          · exact Or.inl (Or.inr ⟨heq, hle⟩)
          · exact Or.inr (Or.inr ⟨heq.symm, hle⟩)
        · exact Or.inr (Or.inl hgt))
      (exam_filter ev (max_exam_priority stg.priority_settings))
    exact hs
  · intro e
    simp [exam_filter, List.mem_filter, and_assoc]

/-- Witness for C1 (amended): the `c8` run finishes having processed its
single selected exam. -/
theorem C1_amended_witness :
    learning_time_algorithm [c8Exam] c8Settings c8Now = .finished ⟨[c8Exam], 1, 0, 0, []⟩ ∧
    (RunState.mk [c8Exam] 1 0 0 []).exams_processed =
      (select_exams [c8Exam] (max_exam_priority c8Settings.priority_settings)).countP
        (fun e => (prio_get c8Settings.priority_settings e.priority).isSome) := by
  have hrun : learning_time_algorithm [c8Exam] c8Settings c8Now =
      .finished ⟨[c8Exam], 1, 0, 0, []⟩ := by
    norm_num [learning_time_algorithm, exams_fold, exam_step, main_loop, ext_loop,
      schedule_day, scheduled_today_for_exam, sumE, filterE, dur_hours, preferred_slot_free,
      general_search, sort_slots, free_slots, fsGo, events_on, make_block, addBlock, upsert,
      removeAll, select_exams, exam_filter, exam_sort_le, sort_compat, prio_get,
      max_exam_priority, int_range, py_lt, py_le, to_dt, to_dt_opt, dateOf, time_of_day,
      weekdayOf, effEnd, day_start_utc, day_end_utc, liftSt, c8Exam, c8Prio, c3Exam,
      c8Settings, c8Now, min_def, max_def, Bind.bind, Except.bind, Pure.pure, Except.pure,
      Int.fdiv_eq_ediv]
  exact ⟨hrun, (C1_amended hrun).1⟩

/-- C8 (amended) — an exam whose configured total is already satisfied at
entry (no linked blocks, zero or negative total) is skipped entirely: the
step allocates no blocks and leaves the results map untouched, so the exam
never appears there, yet it is still counted as processed. -/
theorem C8_amended {cfg : AlgCfg} {prios : List PrioritySetting} {now : ℚ}
    {st : RunState} {e : Event} {ps : PrioritySetting}
    (hp : prio_get prios e.priority = some ps)
    (hz : ps.total_hours_to_learn ≤ 0)
    (hnl : List.filter (fun b => b.exam_id == some e.id) st.events = []) :
    exam_step cfg prios now st e =
      .ok { st with exams_processed := st.exams_processed + 1 } := by
  unfold exam_step
  rw [hp]
  dsimp only
  rw [hnl]
  simp only [filterE, sumE, liftSt, removeAll, List.foldl_nil, List.filter_nil,
    Bind.bind, Except.bind, sub_zero]
  rw [if_pos (max_eq_left hz)]

/-- Witness for C8 (amended): the zero-total exam of the `c8` scenario is
counted but produces no block and no results entry. -/
theorem C8_amended_witness :
    prio_get [c8Prio] c8Exam.priority = some c8Prio ∧
    c8Prio.total_hours_to_learn ≤ 0 ∧
    List.filter (fun b => b.exam_id == some c8Exam.id) [c8Exam] = [] ∧
    exam_step ⟨false, false, 1080, "#0000FF"⟩ [c8Prio] c8Now ⟨[c8Exam], 0, 0, 0, []⟩ c8Exam =
      .ok ⟨[c8Exam], 1, 0, 0, []⟩ := by
  have h1 : prio_get [c8Prio] c8Exam.priority = some c8Prio := by
    norm_num [prio_get, c8Prio, c8Exam, c3Exam]
  have h2 : c8Prio.total_hours_to_learn ≤ 0 := by
    norm_num [c8Prio]
  have h3 : List.filter (fun b => b.exam_id == some c8Exam.id)
      (RunState.mk [c8Exam] 0 0 0 []).events = [] := by
    norm_num [c8Exam, c3Exam]
  exact ⟨h1, h2, h3, C8_amended h1 h2 h3⟩

/-- Appending one event changes a day's linked hours by that event's own
contribution. -/
theorem linked_hours_append {l : List Event} {b : Event} {i d : ℤ} :
    linked_hours (l ++ [b]) i d =
      linked_hours l i d +
        (if b.exam_id == some i && (dateOf (to_dt b.start).min == d) then
          (effEnd b - (to_dt b.start).min) / 60 else 0) := by
  unfold linked_hours
  rw [List.filter_append]
  simp only [List.filter_cons, List.filter_nil]
  split
  · simp
  · simp

/-- With no event linked to the exam, every day's linked hours vanish. -/
theorem linked_hours_of_no_linked {l : List Event} {i : ℤ}
    (h : List.filter (fun b => b.exam_id == some i) l = []) (d : ℤ) :
    linked_hours l i d = 0 := by
  unfold linked_hours
  have hsub : List.filter
      (fun b => b.exam_id == some i && (dateOf (to_dt b.start).min == d)) l = [] := by
    rw [List.filter_eq_nil_iff] at h ⊢
    intro b hb hcontra
    exact h b hb (Bool.and_elim_left hcontra)
  rw [hsub]
  simp

/-- Blocks generated for a different exam never contribute to this exam's
linked hours. -/
theorem linked_hours_extBy {e' : Event} {c : String} {a b : List Event} {i d : ℤ}
    (h : ExtBy e' c a b) (hne : e'.id ≠ i) :
    linked_hours b i d = linked_hours a i d := by
  obtain ⟨t, rfl, hblk⟩ := h
  unfold linked_hours
  rw [List.filter_append]
  have ht : List.filter
      (fun bl => bl.exam_id == some i && (dateOf (to_dt bl.start).min == d)) t = [] := by
    rw [List.filter_eq_nil_iff]
    intro bl hbl hcontra
    obtain ⟨bs, be, rfl⟩ := hblk bl hbl
    have := Bool.and_elim_left hcontra
    simp only [make_block, beq_iff_eq, Option.some.injEq] at this
    exact hne this
  rw [ht]
  simp

/-- One candidate day keeps the per-exam daily cap on every calendar day:
the placed duration never exceeds `max_per_day` minus the hours already
scheduled for the exam that day. -/
theorem schedule_day_cap {cfg : AlgCfg} {ctx : ExamCtx} {day : ℤ} {ns : ℚ} {st : RunState}
    {ns2 : ℚ} {st2 : RunState}
    (hpref : 0 ≤ cfg.preferred_minutes) (hpref2 : cfg.preferred_minutes < 1440)
    (h : schedule_day cfg ctx day ns st = .ok (ns2, st2))
    (hinv : ∀ d, linked_hours st.events ctx.exam.id d ≤ ctx.max_per_day) :
    ∀ d, linked_hours st2.events ctx.exam.id d ≤ ctx.max_per_day := by
  obtain ⟨q, hq, hcase⟩ := schedule_day_cases hpref h
  rcases hcase with ⟨_, rfl⟩ | ⟨htm, bs, be, rfl, hns2, hpos, hdur, hplace⟩
  · exact hinv
  · intro d
    have hqval : q = linked_hours st.events ctx.exam.id day := scheduled_today_ok hq
    have hbsdate : dateOf bs = day := by
      rcases hplace with ⟨_, rfl⟩ | ⟨sl, hsl, rfl, _⟩
      · rw [dateOf_eq_iff]
        constructor
        · linarith
        · push_cast
          linarith
      · exact free_slots_start_date hsl
    simp only [addBlock]
    rw [linked_hours_append]
    have hb1 : (make_block ctx.exam cfg.block_color bs be).exam_id = some ctx.exam.id := rfl
    have hb2 : (to_dt (make_block ctx.exam cfg.block_color bs be).start).min = bs := rfl
    have hb3 : effEnd (make_block ctx.exam cfg.block_color bs be) = be := rfl
    rw [hb1, hb2, hb3]
    by_cases hd : day = d
    · subst hd
      rw [if_pos (by simp [hbsdate])]
      have hle := le_trans hdur (min_le_left _ _)
      rw [← hqval]
      linarith
    · rw [if_neg (by simp [hbsdate, hd])]
      simpa using hinv d
/-- Any property of the working set preserved by each candidate day is an
invariant of the main loop, carried into raised states as well. -/
theorem main_loop_inv {cfg : AlgCfg} {ctx : ExamCtx} {ws we : ℚ} {P : List Event → Prop}
    (hstep : ∀ day ns st ns2 st2, schedule_day cfg ctx day ns st = .ok (ns2, st2) →
      P st.events → P st2.events) :
    ∀ (offsets : List ℤ) (ns : ℚ) (st : RunState) (r : Except (String × RunState) (ℚ × RunState)),
      main_loop cfg ctx ws we offsets ns st = r → P st.events →
      (∀ ns2 st2, r = .ok (ns2, st2) → P st2.events) ∧
      (∀ m st2, r = .error (m, st2) → P st2.events) := by
  intro offsets
  induction offsets with
  | nil =>
    intro ns st r h hP
    rw [main_loop] at h
    subst h
    exact ⟨(fun ns2 st2 h2 => by cases h2; exact hP), (fun m st2 h2 => by cases h2)⟩
  | cons k rest ih =>
    intro ns st r h hP
    rw [main_loop] at h
    split at h
    · exact ih ns st r h hP
    · split at h
      · exact ih ns st r h hP
      · split at h
        · subst h
          exact ⟨(fun ns2 st2 h2 => by cases h2; exact hP), (fun m st2 h2 => by cases h2)⟩
        · simp only [Bind.bind, Except.bind] at h
          cases hs : schedule_day cfg ctx (dateOf (we - (k : ℚ) * 1440)) ns st with
          | error err =>
            rw [hs] at h
            subst h
            refine ⟨(fun ns2 st2 h2 => by cases h2), (fun m st2 h2 => ?_)⟩
            injection h2 with h3
            subst h3
            rw [schedule_day_error hs]
            exact hP
          | ok x =>
            obtain ⟨xn, xs⟩ := x
            rw [hs] at h
            dsimp only at h
            exact ih xn xs r h (hstep _ _ _ _ _ hs hP)

/-- The same invariance for the extension loop. -/
theorem ext_loop_inv {cfg : AlgCfg} {ctx : ExamCtx} {we : ℚ} {P : List Event → Prop}
    (hstep : ∀ day ns st ns2 st2, schedule_day cfg ctx day ns st = .ok (ns2, st2) →
      P st.events → P st2.events) :
    ∀ (offsets : List ℤ) (ns : ℚ) (st : RunState) (r : Except (String × RunState) (ℚ × RunState)),
      ext_loop cfg ctx we offsets ns st = r → P st.events →
      (∀ ns2 st2, r = .ok (ns2, st2) → P st2.events) ∧
      (∀ m st2, r = .error (m, st2) → P st2.events) := by
  intro offsets
  induction offsets with
  | nil =>
    intro ns st r h hP
    rw [ext_loop] at h
    subst h
    exact ⟨(fun ns2 st2 h2 => by cases h2; exact hP), (fun m st2 h2 => by cases h2)⟩
  | cons k rest ih =>
    intro ns st r h hP
    rw [ext_loop] at h
    split at h
    · subst h
      exact ⟨(fun ns2 st2 h2 => by cases h2; exact hP), (fun m st2 h2 => by cases h2)⟩
    · simp only [Bind.bind, Except.bind] at h
      cases hs : schedule_day cfg ctx (dateOf (we - (k : ℚ) * 1440)) ns st with
      | error err =>
        rw [hs] at h
        subst h
        refine ⟨(fun ns2 st2 h2 => by cases h2), (fun m st2 h2 => ?_)⟩
        injection h2 with h3
        subst h3
        rw [schedule_day_error hs]
        exact hP
      | ok x =>
        obtain ⟨xn, xs⟩ := x
        rw [hs] at h
        dsimp only at h
        exact ih xn xs r h (hstep _ _ _ _ _ hs hP)

/-- Any property of the working set preserved by every candidate-day body
is an invariant of a whole exam step, finished or raised. -/
theorem exam_step_inv {cfg : AlgCfg} {prios : List PrioritySetting} {now : ℚ}
    {P : List Event → Prop}
    (hstep : ∀ ctx day ns st1 ns2 st2, schedule_day cfg ctx day ns st1 = .ok (ns2, st2) →
      P st1.events → P st2.events) :
    ∀ (st : RunState) (e : Event) (r : Except (String × RunState) RunState),
      exam_step cfg prios now st e = r → P st.events →
      (∀ st2, r = .ok st2 → P st2.events) ∧
      (∀ m st2, r = .error (m, st2) → P st2.events) := by
  intro st e r h hP
  simp only [exam_step, Bind.bind, Except.bind] at h
  cases hp : prio_get prios e.priority with
  | none =>
    rw [hp] at h
    dsimp only at h
    subst h
    exact ⟨(fun st2 h2 => by cases h2; exact hP), (fun m st2 h2 => by cases h2)⟩
  | some ps =>
    rw [hp] at h
    dsimp only at h
    cases hPB : filterE (fun b => py_lt (to_dt b.start) ⟨now, false⟩)
        (List.filter (fun b => b.exam_id == some e.id) st.events) with
    | error m1 =>
      rw [hPB] at h
      simp only [liftSt] at h
      subst h
      exact ⟨(fun st2 h2 => by cases h2), (fun m st2 h2 => by cases h2; exact hP)⟩
    | ok pastB =>
      obtain ⟨hEB, hpastB⟩ := filterE_past_ok hPB
      subst hpastB
      rw [hPB] at h
      rw [hEB] at h
      simp only [filterE, sumE, liftSt, List.filter_nil, removeAll, List.foldl_nil] at h
      split at h
      · subst h
        exact ⟨(fun st2 h2 => by cases h2; exact hP), (fun m st2 h2 => by cases h2)⟩
      · split at h
        · rename_i err heqML
          subst h
          have hML := (main_loop_inv (fun day ns st1 ns2 st2 => hstep _ day ns st1 ns2 st2)
            _ _ _ _ heqML hP).2 err.1 err.2 (by rw [Prod.mk.eta])
          exact ⟨(fun st2 h2 => by cases h2), (fun m st2 h2 => by cases h2; exact hML)⟩
        · rename_i v heqML
          have hML := (main_loop_inv (fun day ns st1 ns2 st2 => hstep _ day ns st1 ns2 st2)
            _ _ _ _ heqML hP).1 v.1 v.2 (by rw [Prod.mk.eta])
          split at h
          · split at h
            · rename_i err heqEL
              subst h
              have hEL := (ext_loop_inv (fun day ns st1 ns2 st2 => hstep _ day ns st1 ns2 st2)
                _ _ _ _ heqEL hML).2 err.1 err.2 (by rw [Prod.mk.eta])
              exact ⟨(fun st2 h2 => by cases h2), (fun m st2 h2 => by cases h2; exact hEL)⟩
            · rename_i w heqEL
              subst h
              have hEL := (ext_loop_inv (fun day ns st1 ns2 st2 => hstep _ day ns st1 ns2 st2)
                _ _ _ _ heqEL hML).1 w.1 w.2 (by rw [Prod.mk.eta])
              exact ⟨(fun st2 h2 => by cases h2; exact hEL), (fun m st2 h2 => by cases h2)⟩
          · subst h
            exact ⟨(fun st2 h2 => by cases h2; exact hML), (fun m st2 h2 => by cases h2)⟩

/-- Any property of the working set preserved by every candidate-day body
is an invariant of the whole exam loop. -/
theorem exams_fold_inv {cfg : AlgCfg} {prios : List PrioritySetting} {now : ℚ}
    {P : List Event → Prop}
    (hstep : ∀ ctx day ns st1 ns2 st2, schedule_day cfg ctx day ns st1 = .ok (ns2, st2) →
      P st1.events → P st2.events) :
    ∀ (exams : List Event) (st : RunState) (r : Except (String × RunState) RunState),
      exams_fold cfg prios now exams st = r → P st.events →
      (∀ st2, r = .ok st2 → P st2.events) ∧
      (∀ m st2, r = .error (m, st2) → P st2.events) := by
  intro exams
  induction exams with
  | nil =>
    intro st r h hP
    simp only [exams_fold] at h
    subst h
    exact ⟨(fun st2 h2 => by cases h2; exact hP), (fun m st2 h2 => by cases h2)⟩
  | cons e rest ih =>
    intro st r h hP
    simp only [exams_fold, Bind.bind, Except.bind] at h
    cases hstepE : exam_step cfg prios now st e with
    | error err =>
      rw [hstepE] at h
      subst h
      have he := (exam_step_inv hstep st e _ hstepE hP).2 err.1 err.2 (by rw [Prod.mk.eta])
      exact ⟨(fun st2 h2 => by cases h2), (fun m st2 h2 => by cases h2; exact he)⟩
    | ok st1 =>
      rw [hstepE] at h
      have h1 := (exam_step_inv hstep st e _ hstepE hP).1 st1 rfl
      exact ih st1 r h h1

/-- A successful exam step leaves every calendar day of this exam within
its configured daily cap: success implies no event was linked to the exam
beforehand, and each placed block fits the day's remaining headroom. -/
theorem exam_step_cap {cfg : AlgCfg} {prios : List PrioritySetting} {now : ℚ}
    {st : RunState} {e : Event} {st2 : RunState} {ps : PrioritySetting}
    (hpref : 0 ≤ cfg.preferred_minutes) (hpref2 : cfg.preferred_minutes < 1440)
    (hp : prio_get prios e.priority = some ps) (hmax : 0 ≤ ps.max_hours_per_day)
    (h : exam_step cfg prios now st e = .ok st2) :
    ∀ d, linked_hours st2.events e.id d ≤ ps.max_hours_per_day := by
  simp only [exam_step, Bind.bind, Except.bind] at h
  rw [hp] at h
  dsimp only at h
  cases hPB : filterE (fun b => py_lt (to_dt b.start) ⟨now, false⟩)
      (List.filter (fun b => b.exam_id == some e.id) st.events) with
  | error m1 =>
    rw [hPB] at h
    simp only [liftSt] at h
    cases h
  | ok pastB =>
    obtain ⟨hEB, hpastB⟩ := filterE_past_ok hPB
    subst hpastB
    rw [hPB] at h
    rw [hEB] at h
    simp only [filterE, sumE, liftSt, List.filter_nil, removeAll, List.foldl_nil] at h
    have hP0 : ∀ d, linked_hours st.events e.id d ≤ ps.max_hours_per_day := by
      intro d
      rw [linked_hours_of_no_linked hEB d]
      exact hmax
    have hstepCap : ∀ (day : ℤ) (ns : ℚ) (st1 : RunState) (ns2 : ℚ) (st2' : RunState),
        schedule_day cfg ⟨e, ps.max_hours_per_day, 0 ⊔ (ps.total_hours_to_learn - 0 - 0)⟩
          day ns st1 = .ok (ns2, st2') →
        (∀ d, linked_hours st1.events e.id d ≤ ps.max_hours_per_day) →
        (∀ d, linked_hours st2'.events e.id d ≤ ps.max_hours_per_day) := by
      intro day ns st1 ns2 st2' hsd hinv
      exact schedule_day_cap hpref hpref2 hsd hinv
    split at h
    · cases h
      exact hP0
    · split at h
      · cases h
      · rename_i v heqML
        have hML := (@main_loop_inv cfg _ _ _
          (fun evts => ∀ d, linked_hours evts e.id d ≤ ps.max_hours_per_day)
          hstepCap _ _ _ _ heqML hP0).1 v.1 v.2 (by rw [Prod.mk.eta])
        split at h
        · split at h
          · cases h
          · rename_i w heqEL
            have hEL := (@ext_loop_inv cfg _ _
              (fun evts => ∀ d, linked_hours evts e.id d ≤ ps.max_hours_per_day)
              hstepCap _ _ _ _ heqEL hML).1 w.1 w.2 (by rw [Prod.mk.eta])
            cases h
            exact hEL
        · cases h
          exact hML

/-- The exam loop keeps every processed exam within its daily cap, provided
no distinct selected exam shares its id. -/
theorem exams_fold_cap {cfg : AlgCfg} {prios : List PrioritySetting} {now : ℚ}
    {e : Event} {ps : PrioritySetting}
    (hpref : 0 ≤ cfg.preferred_minutes) (hpref2 : cfg.preferred_minutes < 1440)
    (hp : prio_get prios e.priority = some ps) (hmax : 0 ≤ ps.max_hours_per_day) :
    ∀ (exams : List Event) (st : RunState) (st2 : RunState),
      exams_fold cfg prios now exams st = .ok st2 →
      (∀ e' ∈ exams, e'.id = e.id → e' = e) →
      ((∀ d, linked_hours st.events e.id d ≤ ps.max_hours_per_day) ∨ e ∈ exams) →
      ∀ d, linked_hours st2.events e.id d ≤ ps.max_hours_per_day := by
  intro exams
  induction exams with
  | nil =>
    intro st st2 h hids hpre
    simp only [exams_fold] at h
    cases h
    rcases hpre with hpre | hmem
    · exact hpre
    · exact absurd hmem (List.not_mem_nil e)
  | cons e1 rest ih =>
    intro st st2 h hids hpre
    simp only [exams_fold, Bind.bind, Except.bind] at h
    cases hstepE : exam_step cfg prios now st e1 with
    | error err =>
      rw [hstepE] at h
      cases h
    | ok st1 =>
      rw [hstepE] at h
      by_cases he : e1 = e
      · subst he
        have hcap1 := exam_step_cap hpref hpref2 hp hmax hstepE
        exact ih st1 st2 h (fun e' he' hid => hids e' (List.mem_cons_of_mem _ he') hid)
          (Or.inl hcap1)
      · have hne : e1.id ≠ e.id := fun hid => he (hids e1 (List.mem_cons_self _ _) hid)
        obtain ⟨hext, _, _⟩ := exam_step_ok_spec hstepE
        have heqd : ∀ d, linked_hours st1.events e.id d = linked_hours st.events e.id d :=
          fun d => linked_hours_extBy hext hne
        rcases hpre with hpre | hmem
        · exact ih st1 st2 h (fun e' he' hid => hids e' (List.mem_cons_of_mem _ he') hid)
            (Or.inl (fun d => (heqd d) ▸ hpre d))
        · rcases List.mem_cons.mp hmem with rfl | hmem2
          · exact absurd rfl he
          · exact ih st1 st2 h (fun e' he' hid => hids e' (List.mem_cons_of_mem _ he') hid)
              (Or.inr hmem2)

/-- C7 — daily cap: after a finished run, the summed duration of an exam's
linked study blocks on any one calendar day never exceeds the priority's
`max_hours_per_day` (stated for a selected exam with a configured setting,
a nonnegative cap, an in-range preferred time, and no distinct selected
exam sharing its id); and a candidate day whose headroom
`min(max_per_day - scheduledToday, remaining)` is at most the half-hour
minimum session length is skipped with no placement at all. -/
theorem C7_theorem {ev : List Event} {stg : Settings} {now : ℚ} {s : RunState}
    {e : Event} {ps : PrioritySetting}
    (hrun : learning_time_algorithm ev stg now = .finished s)
    (hpref : 0 ≤ stg.preferred_learning_time)
    (hpref2 : stg.preferred_learning_time < 1440)
    (hmem : e ∈ select_exams ev (max_exam_priority stg.priority_settings))
    (hp : prio_get stg.priority_settings e.priority = some ps)
    (hmax : 0 ≤ ps.max_hours_per_day)
    (hids : ∀ e' ∈ select_exams ev (max_exam_priority stg.priority_settings),
      e'.id = e.id → e' = e) :
    (∀ d : ℤ, linked_hours s.events e.id d ≤ ps.max_hours_per_day) ∧
    (∀ (cfg : AlgCfg) (ctx : ExamCtx) (day : ℤ) (ns : ℚ) (st : RunState) (q : ℚ),
      scheduled_today_for_exam st.events ctx.exam.id day = .ok q →
      min (ctx.max_per_day - q) (ctx.hours_left - ns) ≤ 1 / 2 →
      schedule_day cfg ctx day ns st = .ok (ns, st)) := by
  refine ⟨?_, fun cfg ctx day ns st q hq hle => schedule_day_skip hq hle⟩
  unfold learning_time_algorithm at hrun
  split at hrun
  · cases hrun
  · dsimp only at hrun
    rcases hc : stg.study_block_color with _ | c
    · rw [hc] at hrun
      dsimp only at hrun
      split at hrun
      · split at hrun
        · rename_i s1 heq
          cases hrun
          exact exams_fold_cap hpref hpref2 hp hmax _ _ _ heq hids (Or.inr hmem)
        · cases hrun
      · cases hrun
    · rw [hc] at hrun
      dsimp only at hrun
      split at hrun
      · split at hrun
        · rename_i s1 heq
          cases hrun
          exact exams_fold_cap hpref hpref2 hp hmax _ _ _ heq hids (Or.inr hmem)
        · cases hrun
      · cases hrun

/-- Witness for C7: the finished `c8` run respects the 2-hour daily cap of
its single selected exam (day 18 shown). -/
theorem C7_theorem_witness :
    learning_time_algorithm [c8Exam] c8Settings c8Now = .finished ⟨[c8Exam], 1, 0, 0, []⟩ ∧
    (0:ℚ) ≤ c8Settings.preferred_learning_time ∧
    c8Settings.preferred_learning_time < 1440 ∧
    c8Exam ∈ select_exams [c8Exam] (max_exam_priority c8Settings.priority_settings) ∧
    prio_get c8Settings.priority_settings c8Exam.priority = some c8Prio ∧
    (0:ℚ) ≤ c8Prio.max_hours_per_day ∧
    linked_hours (RunState.mk [c8Exam] 1 0 0 []).events c8Exam.id 18 ≤
      c8Prio.max_hours_per_day := by
  have hsel : select_exams [c8Exam] (max_exam_priority c8Settings.priority_settings) =
      [c8Exam] := by
    norm_num [select_exams, exam_filter, max_exam_priority, c8Settings, c8Prio, c8Exam,
      c3Exam, List.mergeSort]
  have hrun : learning_time_algorithm [c8Exam] c8Settings c8Now =
      .finished ⟨[c8Exam], 1, 0, 0, []⟩ := by
    norm_num [learning_time_algorithm, exams_fold, exam_step, main_loop, ext_loop,
      schedule_day, scheduled_today_for_exam, sumE, filterE, dur_hours, preferred_slot_free,
      general_search, sort_slots, free_slots, fsGo, events_on, make_block, addBlock, upsert,
      removeAll, select_exams, exam_filter, exam_sort_le, sort_compat, prio_get,
      max_exam_priority, int_range, py_lt, py_le, to_dt, to_dt_opt, dateOf, time_of_day,
      weekdayOf, effEnd, day_start_utc, day_end_utc, liftSt, c8Exam, c8Prio, c3Exam,
      c8Settings, c8Now, min_def, max_def, Bind.bind, Except.bind, Pure.pure, Except.pure,
      Int.fdiv_eq_ediv]
  have hpref : (0:ℚ) ≤ c8Settings.preferred_learning_time := by norm_num [c8Settings]
  have hpref2 : c8Settings.preferred_learning_time < 1440 := by norm_num [c8Settings]
  have hmem : c8Exam ∈ select_exams [c8Exam] (max_exam_priority c8Settings.priority_settings) := by
    rw [hsel]
    exact List.mem_singleton_self _
  have hp : prio_get c8Settings.priority_settings c8Exam.priority = some c8Prio := by
    norm_num [prio_get, c8Settings, c8Prio, c8Exam, c3Exam]
  have hmax : (0:ℚ) ≤ c8Prio.max_hours_per_day := by norm_num [c8Prio]
  have hids : ∀ e' ∈ select_exams [c8Exam] (max_exam_priority c8Settings.priority_settings),
      e'.id = c8Exam.id → e' = c8Exam := by
    rw [hsel]
    intro e' he' _
    simpa using he'
  exact ⟨hrun, hpref, hpref2, hmem, hp, hmax,
    (C7_theorem hrun hpref hpref2 hmem hp hmax hids).1 18⟩

/-- A candidate day never places a block on a calendar day that carries an
all-day event: the preferred placement needs the day empty and the fallback
needs a free slot, both impossible there. -/
theorem schedule_day_allday_avoid {cfg : AlgCfg} {ctx : ExamCtx} {day : ℤ} {ns : ℚ}
    {st1 : RunState} {ns2 : ℚ} {st2 : RunState} {ev : List Event} {dA : ℤ} {e0 : Event}
    (hpref : 0 ≤ cfg.preferred_minutes) (hpref2 : cfg.preferred_minutes < 1440)
    (he0 : e0 ∈ ev) (ha : e0.all_day = true) (hd0 : dateOf (to_dt e0.start).min = dA)
    (hsd : schedule_day cfg ctx day ns st1 = .ok (ns2, st2))
    (hP : ∃ t, st1.events = ev ++ t ∧ ∀ b ∈ t, dateOf (to_dt b.start).min ≠ dA) :
    ∃ t, st2.events = ev ++ t ∧ ∀ b ∈ t, dateOf (to_dt b.start).min ≠ dA := by
  obtain ⟨t, ht, htA⟩ := hP
  obtain ⟨q, hq, hcase⟩ := schedule_day_cases hpref hsd
  rcases hcase with ⟨_, rfl⟩ | ⟨htm, bs, be, rfl, hns2, hpos, hdur, hplace⟩
  · exact ⟨t, ht, htA⟩
  · have he0' : e0 ∈ st1.events := ht ▸ List.mem_append_left _ he0
    have hbsdate : dateOf bs = day := by
      rcases hplace with ⟨_, rfl⟩ | ⟨sl, hsl, rfl, _⟩
      · rw [dateOf_eq_iff]
        constructor
        · linarith
        · push_cast
          linarith
      · exact free_slots_start_date hsl
    have hday : day ≠ dA := by
      intro hdd
      rcases hplace with ⟨hempty, _⟩ | ⟨sl, hsl, _, _⟩
      · have hmem : e0 ∈ events_on st1.events day :=
          List.mem_filter.mpr ⟨he0', by simp [hd0, hdd]⟩
        rw [hempty] at hmem
        exact absurd hmem (List.not_mem_nil e0)
      · rw [free_slots_allday e0 he0' (hd0.trans hdd.symm) ha] at hsl
        exact absurd hsl (List.not_mem_nil sl)
    refine ⟨t ++ [make_block ctx.exam cfg.block_color bs be], ?_, ?_⟩
    · simp only [addBlock, ht, List.append_assoc]
    · intro b hb
      rcases List.mem_append.mp hb with hb | hb
      · exact htA b hb
      · have hbeq : b = make_block ctx.exam cfg.block_color bs be := List.mem_singleton.mp hb
        subst hbeq
        have hstart : (to_dt (make_block ctx.exam cfg.block_color bs be).start).min = bs := rfl
        rw [hstart, hbsdate]
        exact hday

/-- C5 — all-day blocking: whenever some input event on calendar day `dA`
is flagged all-day, the free-slot computation over the final working set of
any run (finished or raised, preferred time in range) is empty for `dA`,
and no block created by the run starts on `dA`. -/
theorem C5_theorem {ev : List Event} {stg : Settings} {now : ℚ} {s : RunState} {dA : ℤ}
    {e0 : Event}
    (he0 : e0 ∈ ev) (ha : e0.all_day = true) (hd0 : dateOf (to_dt e0.start).min = dA)
    (hpref : 0 ≤ stg.preferred_learning_time) (hpref2 : stg.preferred_learning_time < 1440)
    (h : stateOf (learning_time_algorithm ev stg now) = some s) :
    free_slots s.events dA = [] ∧
    ∀ b ∈ created_blocks ev s, dateOf (to_dt b.start).min ≠ dA := by
  have hmain : ∃ t, s.events = ev ++ t ∧ ∀ b ∈ t, dateOf (to_dt b.start).min ≠ dA := by
    unfold learning_time_algorithm at h
    split at h
    · simp [stateOf] at h
    · dsimp only at h
      rcases hc : stg.study_block_color with _ | c
      · rw [hc] at h
        dsimp only at h
        split at h
        · split at h
          · rename_i s1 heq
            simp only [stateOf, Option.some.injEq] at h
            subst h
            exact (@exams_fold_inv _ _ _
              (fun evts => ∃ t, evts = ev ++ t ∧ ∀ b ∈ t, dateOf (to_dt b.start).min ≠ dA)
              (fun ctx day ns st1 ns2 st2 hsd hPP =>
                schedule_day_allday_avoid hpref hpref2 he0 ha hd0 hsd hPP)
              _ _ _ heq ⟨[], by simp, by simp⟩).1 _ rfl
          · rename_i m s1 heq
            simp only [stateOf, Option.some.injEq] at h
            subst h
            exact (@exams_fold_inv _ _ _
              (fun evts => ∃ t, evts = ev ++ t ∧ ∀ b ∈ t, dateOf (to_dt b.start).min ≠ dA)
              (fun ctx day ns st1 ns2 st2 hsd hPP =>
                schedule_day_allday_avoid hpref hpref2 he0 ha hd0 hsd hPP)
              _ _ _ heq ⟨[], by simp, by simp⟩).2 m _ rfl
        · simp only [stateOf, Option.some.injEq] at h
          subst h
          exact ⟨[], by simp, by simp⟩
      · rw [hc] at h
        dsimp only at h
        split at h
        · split at h
          · rename_i s1 heq
            simp only [stateOf, Option.some.injEq] at h
            subst h
            exact (@exams_fold_inv _ _ _
              (fun evts => ∃ t, evts = ev ++ t ∧ ∀ b ∈ t, dateOf (to_dt b.start).min ≠ dA)
              (fun ctx day ns st1 ns2 st2 hsd hPP =>
                schedule_day_allday_avoid hpref hpref2 he0 ha hd0 hsd hPP)
              _ _ _ heq ⟨[], by simp, by simp⟩).1 _ rfl
          · rename_i m s1 heq
            simp only [stateOf, Option.some.injEq] at h
            subst h
            exact (@exams_fold_inv _ _ _
              (fun evts => ∃ t, evts = ev ++ t ∧ ∀ b ∈ t, dateOf (to_dt b.start).min ≠ dA)
              (fun ctx day ns st1 ns2 st2 hsd hPP =>
                schedule_day_allday_avoid hpref hpref2 he0 ha hd0 hsd hPP)
              _ _ _ heq ⟨[], by simp, by simp⟩).2 m _ rfl
        · simp only [stateOf, Option.some.injEq] at h
          subst h
          exact ⟨[], by simp, by simp⟩
  obtain ⟨t, ht, htA⟩ := hmain
  constructor
  · exact free_slots_allday e0 (ht ▸ List.mem_append_left _ he0) hd0 ha
  · intro b hb
    rw [created_blocks, ht, List.drop_left] at hb
    exact htA b hb

/-- Witness for C5: with an all-day event on day 19 added to the `c8`
scenario, the finished run leaves day 19 with no free slots and no created
block starting there. -/
theorem C5_theorem_witness :
    c5AllDay ∈ [c8Exam, c5AllDay] ∧
    c5AllDay.all_day = true ∧
    dateOf (to_dt c5AllDay.start).min = 19 ∧
    (0:ℚ) ≤ c8Settings.preferred_learning_time ∧
    c8Settings.preferred_learning_time < 1440 ∧
    stateOf (learning_time_algorithm [c8Exam, c5AllDay] c8Settings c8Now) =
      some ⟨[c8Exam, c5AllDay], 1, 0, 0, []⟩ ∧
    free_slots (RunState.mk [c8Exam, c5AllDay] 1 0 0 []).events 19 = [] ∧
    ∀ b ∈ created_blocks [c8Exam, c5AllDay] ⟨[c8Exam, c5AllDay], 1, 0, 0, []⟩,
      dateOf (to_dt b.start).min ≠ 19 := by
  have he0 : c5AllDay ∈ [c8Exam, c5AllDay] := by simp
  have ha : c5AllDay.all_day = true := rfl
  have hd0 : dateOf (to_dt c5AllDay.start).min = 19 := by
    norm_num [to_dt, dateOf, c5AllDay, Int.fdiv_eq_ediv]
  have hpref : (0:ℚ) ≤ c8Settings.preferred_learning_time := by norm_num [c8Settings]
  have hpref2 : c8Settings.preferred_learning_time < 1440 := by norm_num [c8Settings]
  have hrun : stateOf (learning_time_algorithm [c8Exam, c5AllDay] c8Settings c8Now) =
      some ⟨[c8Exam, c5AllDay], 1, 0, 0, []⟩ := by
    norm_num [stateOf, learning_time_algorithm, exams_fold, exam_step, main_loop, ext_loop,
      schedule_day, scheduled_today_for_exam, sumE, filterE, dur_hours, preferred_slot_free,
      general_search, sort_slots, free_slots, fsGo, events_on, make_block, addBlock, upsert,
      removeAll, select_exams, exam_filter, exam_sort_le, sort_compat, prio_get,
      max_exam_priority, int_range, py_lt, py_le, to_dt, to_dt_opt, dateOf, time_of_day,
      weekdayOf, effEnd, day_start_utc, day_end_utc, liftSt, c8Exam, c8Prio, c3Exam,
      c5AllDay, c8Settings, c8Now, min_def, max_def, Bind.bind, Except.bind, Pure.pure,
      Except.pure, Int.fdiv_eq_ediv]
  have hres := C5_theorem he0 ha hd0 hpref hpref2 hrun
  exact ⟨he0, ha, hd0, hpref, hpref2, hrun, hres.1, hres.2⟩

/-- The 30-minute separation is symmetric. -/
theorem bufferSep_symm {b e : Event} (h : BufferSep b e) : BufferSep e b := by
  rcases h with h | h
  · right
    linarith
  · left
    linarith

/-- Every list trivially satisfies the buffer condition from its own
length on. -/
theorem buffer_respected_initial (l : List Event) : buffer_respected l.length l :=
  fun i _ hi _ _ => absurd hi (by have := i.isLt; omega)

/-- Appending an event that keeps the buffer towards every same-day member
preserves the buffer condition. -/
theorem buffer_respected_append {n : ℕ} {l : List Event} {b : Event}
    (hP : buffer_respected n l)
    (hb : ∀ e' ∈ l, dateOf (to_dt e'.start).min = dateOf (to_dt b.start).min →
      BufferSep b e') :
    buffer_respected n (l ++ [b]) := by
  intro i j hi hne hdate
  by_cases hil : (i : ℕ) < l.length <;> by_cases hjl : (j : ℕ) < l.length
  · have hgi : (l ++ [b]).get i = l.get ⟨↑i, hil⟩ := by
      simp only [List.get_eq_getElem]
      exact List.getElem_append_left hil
    have hgj : (l ++ [b]).get j = l.get ⟨↑j, hjl⟩ := by
      simp only [List.get_eq_getElem]
      exact List.getElem_append_left hjl
    rw [hgi, hgj] at hdate ⊢
    exact hP ⟨↑i, hil⟩ ⟨↑j, hjl⟩ hi hne hdate
  · have hj : (j : ℕ) = l.length := by have := j.isLt; simp at this; omega
    have hgi : (l ++ [b]).get i = l.get ⟨↑i, hil⟩ := by
      simp only [List.get_eq_getElem]
      exact List.getElem_append_left hil
    have hgj : (l ++ [b]).get j = b := by
      simp only [List.get_eq_getElem]
      rw [List.getElem_append_right (by omega)]
      simp [hj]
    rw [hgi, hgj] at hdate ⊢
    exact bufferSep_symm (hb _ (List.get_mem l _ hil) hdate)
  · have hi' : (i : ℕ) = l.length := by have := i.isLt; simp at this; omega
    have hgi : (l ++ [b]).get i = b := by
      simp only [List.get_eq_getElem]
      rw [List.getElem_append_right (by omega)]
      simp [hi']
    have hgj : (l ++ [b]).get j = l.get ⟨↑j, hjl⟩ := by
      simp only [List.get_eq_getElem]
      exact List.getElem_append_left hjl
    rw [hgi, hgj] at hdate ⊢
    exact hb _ (List.get_mem l _ hjl) hdate.symm
  · have hi' : (i : ℕ) = l.length := by have := i.isLt; simp at this; omega
    have hj : (j : ℕ) = l.length := by have := j.isLt; simp at this; omega
    exact absurd (hi'.trans hj.symm) hne

/-- The block a candidate day may commit keeps the 30-minute margin towards
every event of the working set that starts on the same calendar day: the
preferred placement requires the day to be empty and the fallback placement
lands inside a swept free slot. -/
theorem schedule_day_buffer_new {cfg : AlgCfg} {ctx : ExamCtx} {day : ℤ} {ns : ℚ}
    {st : RunState} {ns2 : ℚ} {st2 : RunState}
    (hpref : 0 ≤ cfg.preferred_minutes) (hpref2 : cfg.preferred_minutes < 1440)
    (h : schedule_day cfg ctx day ns st = .ok (ns2, st2)) :
    st2.events = st.events ∨
    ∃ b, st2.events = st.events ++ [b] ∧
      ∀ e' ∈ st.events, dateOf (to_dt e'.start).min = dateOf (to_dt b.start).min →
        BufferSep b e' := by
  obtain ⟨q, hq, hcase⟩ := schedule_day_cases hpref h
  rcases hcase with ⟨_, rfl⟩ | ⟨htm, bs, be, rfl, hns2, hpos, hdur, hplace⟩
  · exact Or.inl rfl
  · right
    refine ⟨make_block ctx.exam cfg.block_color bs be, rfl, ?_⟩
    intro e' he' hdate
    have hstart : (to_dt (make_block ctx.exam cfg.block_color bs be).start).min = bs := rfl
    have heff : effEnd (make_block ctx.exam cfg.block_color bs be) = be := rfl
    rcases hplace with ⟨hempty, hbs⟩ | ⟨sl, hsl, hbs, hbe⟩
    · exfalso
      have hbsd : dateOf bs = day := by
        subst hbs
        rw [dateOf_eq_iff]
        constructor
        · linarith
        · push_cast
          linarith
      have hmem : e' ∈ events_on st.events day :=
        List.mem_filter.mpr ⟨he', by rw [hstart, hbsd] at hdate; simp [hdate]⟩
      rw [hempty] at hmem
      exact absurd hmem (List.not_mem_nil e')
    · have hsep := (free_slots_mem hsl).2.2.2
      have he'on : e' ∈ events_on st.events day := by
        have hd1 : dateOf (to_dt e'.start).min = day := by
          rw [hdate, hstart, hbs]
          exact free_slots_start_date hsl
        exact List.mem_filter.mpr ⟨he', by simp [hd1]⟩
      rcases hsep e' he'on with hafter | hbefore
      · right
        rw [heff]
        linarith
      · left
        rw [hstart, hbs]
        linarith

/-- C6 — buffer invariant: in the final working set of any run (finished
or raised, preferred time in range), every block beyond the input prefix
keeps the 30-minute margin towards every other event that starts on the
same calendar day. -/
theorem C6_theorem {ev : List Event} {stg : Settings} {now : ℚ} {s : RunState}
    (hpref : 0 ≤ stg.preferred_learning_time) (hpref2 : stg.preferred_learning_time < 1440)
    (h : stateOf (learning_time_algorithm ev stg now) = some s) :
    buffer_respected ev.length s.events := by
  unfold learning_time_algorithm at h
  split at h
  · simp [stateOf] at h
  · dsimp only at h
    rcases hc : stg.study_block_color with _ | c
    · rw [hc] at h
      dsimp only at h
      split at h
      · split at h
        · rename_i s1 heq
          simp only [stateOf, Option.some.injEq] at h
          subst h
          exact (@exams_fold_inv _ _ _ (fun evts => buffer_respected ev.length evts)
            (fun ctx day ns st1 ns2 st2 hsd hPP => by
              rcases schedule_day_buffer_new hpref hpref2 hsd with heq2 | ⟨b, heq2, hb⟩
              · rwa [heq2]
              · rw [heq2]
                exact buffer_respected_append hPP hb)
            _ _ _ heq (buffer_respected_initial ev)).1 _ rfl
        · rename_i m s1 heq
          simp only [stateOf, Option.some.injEq] at h
          subst h
          exact (@exams_fold_inv _ _ _ (fun evts => buffer_respected ev.length evts)
            (fun ctx day ns st1 ns2 st2 hsd hPP => by
              rcases schedule_day_buffer_new hpref hpref2 hsd with heq2 | ⟨b, heq2, hb⟩
              · rwa [heq2]
              · rw [heq2]
                exact buffer_respected_append hPP hb)
            _ _ _ heq (buffer_respected_initial ev)).2 m _ rfl
      · simp only [stateOf, Option.some.injEq] at h
        subst h
        exact buffer_respected_initial ev
    · rw [hc] at h
      dsimp only at h
      split at h
      · split at h
        · rename_i s1 heq
          simp only [stateOf, Option.some.injEq] at h
          subst h
          exact (@exams_fold_inv _ _ _ (fun evts => buffer_respected ev.length evts)
            (fun ctx day ns st1 ns2 st2 hsd hPP => by
              rcases schedule_day_buffer_new hpref hpref2 hsd with heq2 | ⟨b, heq2, hb⟩
              · rwa [heq2]
              · rw [heq2]
                exact buffer_respected_append hPP hb)
            _ _ _ heq (buffer_respected_initial ev)).1 _ rfl
        · rename_i m s1 heq
          simp only [stateOf, Option.some.injEq] at h
          subst h
          exact (@exams_fold_inv _ _ _ (fun evts => buffer_respected ev.length evts)
            (fun ctx day ns st1 ns2 st2 hsd hPP => by
              rcases schedule_day_buffer_new hpref hpref2 hsd with heq2 | ⟨b, heq2, hb⟩
              · rwa [heq2]
              · rw [heq2]
                exact buffer_respected_append hPP hb)
            _ _ _ heq (buffer_respected_initial ev)).2 m _ rfl
      · simp only [stateOf, Option.some.injEq] at h
        subst h
        exact buffer_respected_initial ev

/-- Witness for C6: the finished `c8` run satisfies the buffer condition
for every block beyond its one-event input. -/
theorem C6_theorem_witness :
    (0:ℚ) ≤ c8Settings.preferred_learning_time ∧
    c8Settings.preferred_learning_time < 1440 ∧
    stateOf (learning_time_algorithm [c8Exam] c8Settings c8Now) =
      some ⟨[c8Exam], 1, 0, 0, []⟩ ∧
    buffer_respected [c8Exam].length (RunState.mk [c8Exam] 1 0 0 []).events := by
  have hpref : (0:ℚ) ≤ c8Settings.preferred_learning_time := by norm_num [c8Settings]
  have hpref2 : c8Settings.preferred_learning_time < 1440 := by norm_num [c8Settings]
  have hrun : stateOf (learning_time_algorithm [c8Exam] c8Settings c8Now) =
      some ⟨[c8Exam], 1, 0, 0, []⟩ := by
    norm_num [stateOf, learning_time_algorithm, exams_fold, exam_step, main_loop, ext_loop,
      schedule_day, scheduled_today_for_exam, sumE, filterE, dur_hours, preferred_slot_free,
      general_search, sort_slots, free_slots, fsGo, events_on, make_block, addBlock, upsert,
      removeAll, select_exams, exam_filter, exam_sort_le, sort_compat, prio_get,
      max_exam_priority, int_range, py_lt, py_le, to_dt, to_dt_opt, dateOf, time_of_day,
      weekdayOf, effEnd, day_start_utc, day_end_utc, liftSt, c8Exam, c8Prio, c3Exam,
      c8Settings, c8Now, min_def, max_def, Bind.bind, Except.bind, Pure.pure, Except.pure,
      Int.fdiv_eq_ediv]
  exact ⟨hpref, hpref2, hrun, C6_theorem hpref hpref2 hrun⟩

end Kkoala
